import Mathlib

/-!
Verification of dissect.btrfs against its specification.

The definitions below are shallow embeddings of the Python sources:
`dissect/btrfs/stream.py` (chunk stream, extent stream), `dissect/btrfs/tree.py`
(B-tree cursor), `dissect/btrfs/btrfs.py` (inode open, path lookup) and the
constants of `dissect/btrfs/c_btrfs.py`.  Machine integers are modelled as
`Nat` (all quantities involved are unsigned and no wrap-around arithmetic is
performed by the sources), byte strings as `List Nat`, device handles as
`Option Nat` (`none` = missing device) and fallible code as `Option`/`Except`.
-/

namespace BtrfsVerify

/-! ## Block-group flags and RAID attributes (c_btrfs.py) -/

def BG_RAID0 : Nat := 0x8
def BG_RAID1 : Nat := 0x10
def BG_DUP : Nat := 0x20
def BG_RAID10 : Nat := 0x40
def BG_RAID5 : Nat := 0x80
def BG_RAID6 : Nat := 0x100
def BG_RAID1C3 : Nat := 0x200
def BG_RAID1C4 : Nat := 0x400

def BG_PROFILE_MASK : Nat :=
  BG_RAID0 ||| BG_RAID1 ||| BG_RAID1C3 ||| BG_RAID1C4 ||| BG_RAID5 ||| BG_RAID6 ||| BG_DUP ||| BG_RAID10

def BG_RAID56_MASK : Nat := BG_RAID5 ||| BG_RAID6

def BG_RAID1_MASK : Nat := BG_RAID1 ||| BG_RAID1C3 ||| BG_RAID1C4

def BG_STRIPE_MASK : Nat := BG_RAID0 ||| BG_RAID10 ||| BG_RAID56_MASK

/-- `BTRFS_RAID_ATTRIBUTES`: profile flag ↦ `(ncopies, nparity, tolerated_failures)`.
`none` models the Python `KeyError` on an unknown profile value. -/
def raidAttributes (profile : Nat) : Option (Nat × Nat × Nat) :=
  if profile = 0 then some (1, 0, 0)
  else if profile = BG_RAID0 then some (1, 0, 0)
  else if profile = BG_RAID1 then some (2, 0, 1)
  else if profile = BG_DUP then some (2, 0, 0)
  else if profile = BG_RAID10 then some (2, 0, 1)
  else if profile = BG_RAID5 then some (1, 1, 1)
  else if profile = BG_RAID6 then some (1, 2, 2)
  else if profile = BG_RAID1C3 then some (3, 0, 2)
  else if profile = BG_RAID1C4 then some (4, 0, 3)
  else none

/-- The RAID profiles of the specification's table. -/
inductive RaidProfile where
  | single | raid0 | raid1 | raid1c3 | raid1c4 | dup | raid10 | raid5 | raid6
deriving Repr, DecidableEq

def profileFlag : RaidProfile → Nat
  | .single => 0
  | .raid0 => BG_RAID0
  | .raid1 => BG_RAID1
  | .raid1c3 => BG_RAID1C3
  | .raid1c4 => BG_RAID1C4
  | .dup => BG_DUP
  | .raid10 => BG_RAID10
  | .raid5 => BG_RAID5
  | .raid6 => BG_RAID6

/-- The `(ncopies, nparity, tolerated_failures)` table as stated by the spec. -/
def specRaidAttrs : RaidProfile → Nat × Nat × Nat
  | .single => (1, 0, 0)
  | .raid0 => (1, 0, 0)
  | .raid1 => (2, 0, 1)
  | .raid1c3 => (3, 0, 2)
  | .raid1c4 => (4, 0, 3)
  | .dup => (2, 0, 0)
  | .raid10 => (2, 0, 1)
  | .raid5 => (1, 1, 1)
  | .raid6 => (1, 2, 2)

/-! ## Chunk stream (stream.py) -/

/-- `Stripe` named tuple; `fh` is the device handle (`none` = missing). -/
structure Stripe where
  fh : Option Nat
  offset : Nat
  devid : Nat
  dev_uuid : Nat
deriving Repr, DecidableEq, Inhabited

/-- `Chunk` named tuple. -/
structure Chunk where
  offset : Nat
  length : Nat
  stripe_length : Nat
  ctype : Nat
  num_stripes : Nat
  sub_stripes : Nat
  data_stripes : Nat
  stripes : List Stripe
deriving Repr, DecidableEq, Inhabited

/-- The fields of an on-disk `btrfs_chunk` record used by `ChunkStream.add`;
`stripe` entries are `(devid, offset, dev_uuid)`. -/
structure ChunkRec where
  length : Nat
  stripe_len : Nat
  ctype : Nat
  num_stripes : Nat
  sub_stripes : Nat
  stripe : List (Nat × Nat × Nat)
deriving Repr, DecidableEq, Inhabited

/-- The mutable state of a `ChunkStream`: the `chunks` list and the parallel
`_chunk_offsets` list. -/
structure ChunkStreamState where
  chunks : List Chunk
  chunkOffsets : List Nat
deriving Repr, DecidableEq, Inhabited

/-- `bisect.bisect_right` insertion point: on a sorted list it equals the
number of elements that are `≤ x`. -/
def bisectRight (l : List Nat) (x : Nat) : Nat := l.countP (fun y => decide (y ≤ x))

/-- Python `list.insert` (clamps an out-of-range index to an append). -/
def insertAt {α : Type} : Nat → α → List α → List α
  | 0, a, l => a :: l
  | _ + 1, a, [] => [a]
  | n + 1, a, x :: l => x :: insertAt n a l

/-- The early-return check of `ChunkStream.add`: the chunk just before the
insertion point already covers `offset`. -/
def coveredAt (st : ChunkStreamState) (offset : Nat) : Bool :=
  let chunkIdx := bisectRight st.chunkOffsets offset
  if chunkIdx = 0 then false
  else
    let existing := st.chunks.getD (chunkIdx - 1) default
    decide (existing.offset ≤ offset ∧ offset < existing.offset + existing.length)

/-- The stripe loop of `ChunkStream.add`: link each stripe to its device,
counting missing devices against `tolerated`. -/
def buildStripes (devices : Nat → Option Nat) (tolerated : Nat) :
    List (Nat × Nat × Nat) → Nat → Except String (List Stripe)
  | [], _ => .ok []
  | (devid, soff, uuid) :: rest, missing =>
    match devices devid with
    | none =>
        if missing < tolerated then
          (buildStripes devices tolerated rest (missing + 1)).map
            (fun l => (⟨none, soff, devid, uuid⟩ : Stripe) :: l)
        else .error "Missing stripe disk for chunk offset"
    | some fh =>
        (buildStripes devices tolerated rest missing).map
          (fun l => (⟨some fh, soff, devid, uuid⟩ : Stripe) :: l)

/-- `ChunkStream.add`. -/
def addChunk (devices : Nat → Option Nat) (st : ChunkStreamState) (offset : Nat)
    (ck : ChunkRec) : Except String ChunkStreamState :=
  if coveredAt st offset then .ok st
  else
    match raidAttributes (ck.ctype &&& BG_PROFILE_MASK) with
    | none => .error "unknown RAID profile"
    | some (ncopies, nparity, tolerated) =>
      let data_stripes := (ck.num_stripes - nparity) / ncopies
      (buildStripes devices tolerated ck.stripe 0).map fun stripes =>
        let chunk : Chunk :=
          ⟨offset, ck.length, ck.stripe_len, ck.ctype, ck.num_stripes, ck.sub_stripes,
            data_stripes, stripes⟩
        let idx := bisectRight st.chunkOffsets offset
        ⟨insertAt idx chunk st.chunks, insertAt idx offset st.chunkOffsets⟩

/-- `_get_stripe_read_info`: returns
`(stripe_num, stripe_idx, stripe_offset, stripe_remaining)`. -/
def getStripeReadInfo (c : Chunk) (offset : Nat) : Nat × Nat × Nat × Nat :=
  let stripe_num := offset / c.stripe_length
  let stripe_offset := offset % c.stripe_length
  let p :=
    if c.ctype &&& BG_RAID0 ≠ 0 then
      (stripe_num / c.num_stripes, stripe_num % c.num_stripes)
    else if c.ctype &&& BG_RAID1_MASK ≠ 0 then
      (stripe_num, 0)
    else if c.ctype &&& BG_DUP ≠ 0 then
      (stripe_num, 0)
    else if c.ctype &&& BG_RAID10 ≠ 0 then
      let factor := c.num_stripes / c.sub_stripes
      (stripe_num / factor, stripe_num % factor)
    else if c.ctype &&& BG_RAID56_MASK ≠ 0 then
      let sn := stripe_num / c.data_stripes
      let si := stripe_num % c.data_stripes
      (sn, (sn + si) % c.num_stripes)
    else
      (stripe_num / c.num_stripes, stripe_num % c.num_stripes)
  let stripe_remaining :=
    if c.ctype &&& BG_STRIPE_MASK ≠ 0 then c.stripe_length - stripe_offset
    else c.length - offset
  (p.1, p.2, stripe_offset, stripe_remaining)

/-- The spec's per-profile `(stripe_num, stripe_idx, in_stripe_offset)` table,
written from the claim's words. -/
def claimStripeTriple (p : RaidProfile) (num_stripes sub_stripes stripe_length off : Nat) :
    Nat × Nat × Nat :=
  let sn := off / stripe_length
  let so := off % stripe_length
  match p with
  | .single => (sn / num_stripes, sn % num_stripes, so)
  | .raid0 => (sn / num_stripes, sn % num_stripes, so)
  | .raid1 => (sn, 0, so)
  | .raid1c3 => (sn, 0, so)
  | .raid1c4 => (sn, 0, so)
  | .dup => (sn, 0, so)
  | .raid10 => (sn / (num_stripes / sub_stripes), sn % (num_stripes / sub_stripes), so)
  | .raid5 =>
      let ds := (num_stripes - (specRaidAttrs .raid5).2.1) / (specRaidAttrs .raid5).1
      (sn / ds, (sn / ds + sn % ds) % num_stripes, so)
  | .raid6 =>
      let ds := (num_stripes - (specRaidAttrs .raid6).2.1) / (specRaidAttrs .raid6).1
      (sn / ds, (sn / ds + sn % ds) % num_stripes, so)

/-- The mirror-failover loop of `ChunkStream._read`.  `none` = fuel exhausted
(the Python loop would spin), `some (.error ())` = the `NotImplementedError`
raised for RAID5/6, `some (.ok (idx, stripe))` = the surviving stripe. -/
def failoverStripe (c : Chunk) : Nat → Nat → Option (Except Unit (Nat × Stripe))
  | 0, idx =>
      let s := c.stripes.getD (idx % c.num_stripes) default
      if s.fh.isSome then some (.ok (idx, s)) else none
  | fuel + 1, idx =>
      let s := c.stripes.getD (idx % c.num_stripes) default
      if s.fh.isSome then some (.ok (idx, s))
      else if c.ctype &&& BG_DUP ≠ 0 then failoverStripe c fuel 1
      else if c.ctype &&& BG_RAID56_MASK ≠ 0 then some (.error ())
      else failoverStripe c fuel (idx + 1)

/-- One iteration of the inner loop of `ChunkStream._read` for a logical
`offset` inside chunk `c`: stripe selection, failover, and the physical seek
position `stripe.offset + stripe_offset + stripe_num * stripe_length`.
Returns the chosen stripe, the seek position and the read length. -/
def chunkReadStep (c : Chunk) (offset length : Nat) : Option (Except Unit (Stripe × Nat × Nat)) :=
  let chunk_offset := offset - c.offset
  let info := getStripeReadInfo c chunk_offset
  let stripe_read := min info.2.2.2 length
  (failoverStripe c c.num_stripes info.2.1).map
    (fun r => r.map (fun is =>
      (is.2, is.2.offset + info.2.2.1 + info.1 * c.stripe_length, stripe_read)))

/-! ### C2: stripe mapping -/

theorem and_profile_eq (c X : Nat) (p : RaidProfile)
    (hp : c &&& BG_PROFILE_MASK = profileFlag p) (hX : BG_PROFILE_MASK &&& X = X) :
    c &&& X = profileFlag p &&& X := by
  conv_lhs => rw [← hX]
  rw [← Nat.and_assoc, hp]

/-- C2: for every chunk and in-chunk offset, `_get_stripe_read_info` computes
`(stripe_num, stripe_idx, in_stripe_offset)` from
`divmod(offset - chunk.logical_offset, stripe_length)` exactly per the claimed
per-profile table (with `data_stripes = (num_stripes - nparity) / ncopies` as
installed by `add`), and the physical read is issued at
`stripe.physical_offset + in_stripe_offset + stripe_num * stripe_length`. -/
theorem c2_stripe_mapping (c : Chunk) (p : RaidProfile) (off : Nat)
    (hp : c.ctype &&& BG_PROFILE_MASK = profileFlag p)
    (hds : c.data_stripes = (c.num_stripes - (specRaidAttrs p).2.1) / (specRaidAttrs p).1) :
    ((getStripeReadInfo c off).1, (getStripeReadInfo c off).2.1,
        (getStripeReadInfo c off).2.2.1) =
      claimStripeTriple p c.num_stripes c.sub_stripes c.stripe_length off
    ∧ (∀ abs len st pos rl,
        chunkReadStep c abs len = some (.ok (st, pos, rl)) →
        pos = st.offset + (getStripeReadInfo c (abs - c.offset)).2.2.1 +
          (getStripeReadInfo c (abs - c.offset)).1 * c.stripe_length) := by
  constructor
  · have h0 := and_profile_eq c.ctype BG_RAID0 p hp (by decide)
    have h1 := and_profile_eq c.ctype BG_RAID1_MASK p hp (by decide)
    have h2 := and_profile_eq c.ctype BG_DUP p hp (by decide)
    have h3 := and_profile_eq c.ctype BG_RAID10 p hp (by decide)
    have h4 := and_profile_eq c.ctype BG_RAID56_MASK p hp (by decide)
    cases p <;>
      [rw [show profileFlag .single &&& BG_RAID0 = 0 from by decide] at h0;
       rw [show profileFlag .raid0 &&& BG_RAID0 = 8 from by decide] at h0;
       rw [show profileFlag .raid1 &&& BG_RAID0 = 0 from by decide] at h0;
       rw [show profileFlag .raid1c3 &&& BG_RAID0 = 0 from by decide] at h0;
       rw [show profileFlag .raid1c4 &&& BG_RAID0 = 0 from by decide] at h0;
       rw [show profileFlag .dup &&& BG_RAID0 = 0 from by decide] at h0;
       rw [show profileFlag .raid10 &&& BG_RAID0 = 0 from by decide] at h0;
       rw [show profileFlag .raid5 &&& BG_RAID0 = 0 from by decide] at h0;
       rw [show profileFlag .raid6 &&& BG_RAID0 = 0 from by decide] at h0] <;>
      [rw [show profileFlag .single &&& BG_RAID1_MASK = 0 from by decide] at h1;
       rw [show profileFlag .raid0 &&& BG_RAID1_MASK = 0 from by decide] at h1;
       rw [show profileFlag .raid1 &&& BG_RAID1_MASK = 16 from by decide] at h1;
       rw [show profileFlag .raid1c3 &&& BG_RAID1_MASK = 512 from by decide] at h1;
       rw [show profileFlag .raid1c4 &&& BG_RAID1_MASK = 1024 from by decide] at h1;
       rw [show profileFlag .dup &&& BG_RAID1_MASK = 0 from by decide] at h1;
       rw [show profileFlag .raid10 &&& BG_RAID1_MASK = 0 from by decide] at h1;
       rw [show profileFlag .raid5 &&& BG_RAID1_MASK = 0 from by decide] at h1;
       rw [show profileFlag .raid6 &&& BG_RAID1_MASK = 0 from by decide] at h1] <;>
      [rw [show profileFlag .single &&& BG_DUP = 0 from by decide] at h2;
       rw [show profileFlag .raid0 &&& BG_DUP = 0 from by decide] at h2;
       rw [show profileFlag .raid1 &&& BG_DUP = 0 from by decide] at h2;
       rw [show profileFlag .raid1c3 &&& BG_DUP = 0 from by decide] at h2;
       rw [show profileFlag .raid1c4 &&& BG_DUP = 0 from by decide] at h2;
       rw [show profileFlag .dup &&& BG_DUP = 32 from by decide] at h2;
       rw [show profileFlag .raid10 &&& BG_DUP = 0 from by decide] at h2;
       rw [show profileFlag .raid5 &&& BG_DUP = 0 from by decide] at h2;
       rw [show profileFlag .raid6 &&& BG_DUP = 0 from by decide] at h2] <;>
      [rw [show profileFlag .single &&& BG_RAID10 = 0 from by decide] at h3;
       rw [show profileFlag .raid0 &&& BG_RAID10 = 0 from by decide] at h3;
       rw [show profileFlag .raid1 &&& BG_RAID10 = 0 from by decide] at h3;
       rw [show profileFlag .raid1c3 &&& BG_RAID10 = 0 from by decide] at h3;
       rw [show profileFlag .raid1c4 &&& BG_RAID10 = 0 from by decide] at h3;
       rw [show profileFlag .dup &&& BG_RAID10 = 0 from by decide] at h3;
       rw [show profileFlag .raid10 &&& BG_RAID10 = 64 from by decide] at h3;
       rw [show profileFlag .raid5 &&& BG_RAID10 = 0 from by decide] at h3;
       rw [show profileFlag .raid6 &&& BG_RAID10 = 0 from by decide] at h3] <;>
      [rw [show profileFlag .single &&& BG_RAID56_MASK = 0 from by decide] at h4;
       rw [show profileFlag .raid0 &&& BG_RAID56_MASK = 0 from by decide] at h4;
       rw [show profileFlag .raid1 &&& BG_RAID56_MASK = 0 from by decide] at h4;
       rw [show profileFlag .raid1c3 &&& BG_RAID56_MASK = 0 from by decide] at h4;
       rw [show profileFlag .raid1c4 &&& BG_RAID56_MASK = 0 from by decide] at h4;
       rw [show profileFlag .dup &&& BG_RAID56_MASK = 0 from by decide] at h4;
       rw [show profileFlag .raid10 &&& BG_RAID56_MASK = 0 from by decide] at h4;
       rw [show profileFlag .raid5 &&& BG_RAID56_MASK = 128 from by decide] at h4;
       rw [show profileFlag .raid6 &&& BG_RAID56_MASK = 256 from by decide] at h4] <;>
      simp [getStripeReadInfo, claimStripeTriple, specRaidAttrs, h0, h1, h2, h3, h4, hds]
  · intro abs len st pos rl h
    unfold chunkReadStep at h
    simp only [] at h
    cases hfo : failoverStripe c c.num_stripes (getStripeReadInfo c (abs - c.offset)).2.1 with
    | none => simp [hfo] at h
    | some r =>
      simp only [hfo, Option.map_some, Option.some_inj] at h
      cases r with
      | error e => simp [Except.map] at h
      | ok is =>
        simp [Except.map] at h
        rw [← h.2.1, h.1]

/-- Concrete RAID0 chunk used to witness C2. -/
def c2demo : Chunk :=
  ⟨0, 0x40000, 0x10000, 9, 2, 1, 2,
    [⟨some 1, 0x100000, 1, 0⟩, ⟨some 2, 0x200000, 2, 0⟩]⟩

theorem c2_stripe_mapping_witness :
    ((getStripeReadInfo c2demo 0x18000).1, (getStripeReadInfo c2demo 0x18000).2.1,
        (getStripeReadInfo c2demo 0x18000).2.2.1) =
      claimStripeTriple .raid0 2 1 0x10000 0x18000
    ∧ (0x208000 : Nat) = (⟨some 2, 0x200000, 2, 0⟩ : Stripe).offset +
        (getStripeReadInfo c2demo (0x18000 - c2demo.offset)).2.2.1 +
        (getStripeReadInfo c2demo (0x18000 - c2demo.offset)).1 * c2demo.stripe_length :=
  ⟨(c2_stripe_mapping c2demo .raid0 0x18000 (by decide) (by decide)).1,
   (c2_stripe_mapping c2demo .raid0 0x18000 (by decide) (by decide)).2
     0x18000 0x1000 ⟨some 2, 0x200000, 2, 0⟩ 0x208000 0x1000 rfl⟩

/-! ### C3/C4: `ChunkStream.add` -/

/-- Number of stripes of a chunk record whose device is absent. -/
def countMissing (devices : Nat → Option Nat) (l : List (Nat × Nat × Nat)) : Nat :=
  l.countP (fun s => (devices s.1).isNone)

def isOkE {ε α : Type} : Except ε α → Bool
  | .ok _ => true
  | .error _ => false

theorem isOkE_map {ε α β : Type} (f : α → β) (x : Except ε α) :
    isOkE (x.map f) = isOkE x := by
  cases x <;> rfl

theorem buildStripes_isOk (devices : Nat → Option Nat) (tol : Nat) :
    ∀ (l : List (Nat × Nat × Nat)) (m : Nat), m ≤ tol →
    isOkE (buildStripes devices tol l m) = decide (m + countMissing devices l ≤ tol) := by
  intro l
  induction l with
  | nil => intro m hm; simp [buildStripes, countMissing, isOkE, hm]
  | cons s rest ih =>
    intro m hm
    obtain ⟨devid, soff, uuid⟩ := s
    unfold buildStripes
    cases hdev : devices devid with
    | none =>
      by_cases hlt : m < tol
      · rw [if_pos hlt, isOkE_map, ih (m + 1) hlt]
        have : countMissing devices ((devid, soff, uuid) :: rest) =
            countMissing devices rest + 1 := by
          simp [countMissing, List.countP_cons, hdev]
        rw [this]
        rw [(by omega :
          m + (countMissing devices rest + 1) = m + 1 + countMissing devices rest)]
      · have hm' : m = tol := by omega
        rw [if_neg hlt]
        have : countMissing devices ((devid, soff, uuid) :: rest) =
            countMissing devices rest + 1 := by
          simp [countMissing, List.countP_cons, hdev]
        simp [isOkE, this, hm']
    | some fh =>
      rw [isOkE_map, ih m hm]
      have : countMissing devices ((devid, soff, uuid) :: rest) =
          countMissing devices rest := by
        simp [countMissing, List.countP_cons, hdev]
      rw [this]

/-- C3 (amended): when the predecessor chunk already covers the offset, `add`
is a no-op and never raises; otherwise `add` succeeds if and only if the
number of stripes with a missing device is at most the profile's
`tolerated_failures`. -/
theorem c3_add_tolerated_failures (devices : Nat → Option Nat) (st : ChunkStreamState)
    (offset : Nat) (ck : ChunkRec) (nc np tol : Nat)
    (hattr : raidAttributes (ck.ctype &&& BG_PROFILE_MASK) = some (nc, np, tol)) :
    (coveredAt st offset = true → addChunk devices st offset ck = .ok st)
    ∧ (coveredAt st offset = false →
        isOkE (addChunk devices st offset ck) =
          decide (countMissing devices ck.stripe ≤ tol)) := by
  constructor
  · intro hcov
    unfold addChunk
    rw [if_pos hcov]
  · intro hcov
    unfold addChunk
    rw [hcov]
    simp only [Bool.false_eq_true, if_false, hattr]
    rw [isOkE_map, buildStripes_isOk devices tol ck.stripe 0 (Nat.zero_le tol)]
    simp

/-- C3 counterexample: a chunk record whose only stripe's device is missing
(1 missing > 0 tolerated for the SINGLE profile) is passed to `add` at an
offset already covered by an installed chunk; `add` returns without raising,
contradicting the claimed "raises iff missing > tolerated". -/
def c3devices : Nat → Option Nat := fun d => if d = 1 then some 1 else none

def c3ckA : ChunkRec := ⟨100, 0x1000, 2, 1, 0, [(1, 0, 0)]⟩

def c3ckB : ChunkRec := ⟨10, 0x1000, 2, 1, 0, [(2, 0, 0)]⟩

def c3st1 : ChunkStreamState :=
  ⟨[⟨0, 100, 0x1000, 2, 1, 0, 1, [⟨some 1, 0, 1, 0⟩]⟩], [0]⟩

theorem c3_counterexample :
    addChunk c3devices ⟨[], []⟩ 0 c3ckA = .ok c3st1
    ∧ addChunk c3devices c3st1 50 c3ckB = .ok c3st1
    ∧ raidAttributes (c3ckB.ctype &&& BG_PROFILE_MASK) = some (1, 0, 0)
    ∧ 0 < countMissing c3devices c3ckB.stripe :=
  ⟨rfl, rfl, rfl, by decide⟩

theorem c3_add_tolerated_failures_witness :
    isOkE (addChunk c3devices ⟨[], []⟩ 0 c3ckA) =
      decide (countMissing c3devices c3ckA.stripe ≤ 0) :=
  (c3_add_tolerated_failures c3devices ⟨[], []⟩ 0 c3ckA 1 0 0 rfl).2 rfl

theorem mem_insertAt {α : Type} (a x : α) :
    ∀ (n : Nat) (l : List α), x ∈ insertAt n a l → x = a ∨ x ∈ l := by
  intro n
  induction n with
  | zero =>
    intro l hx
    simp only [insertAt, List.mem_cons] at hx
    tauto
  | succ n ih =>
    intro l hx
    cases l with
    | nil =>
      simp only [insertAt, List.mem_singleton] at hx
      tauto
    | cons y l =>
      simp only [insertAt, List.mem_cons] at hx
      rcases hx with h | h
      · right; simp [h]
      · rcases ih l h with h' | h'
        · tauto
        · right; simp [h']

theorem map_insertAt {α β : Type} (f : α → β) (a : α) :
    ∀ (n : Nat) (l : List α), (insertAt n a l).map f = insertAt n (f a) (l.map f) := by
  intro n
  induction n with
  | zero => intro l; rfl
  | succ n ih =>
    intro l
    cases l with
    | nil => rfl
    | cons y l => simp [insertAt, ih]

theorem length_insertAt {α : Type} (a : α) :
    ∀ (n : Nat) (l : List α), (insertAt n a l).length = l.length + 1 := by
  intro n
  induction n with
  | zero => intro l; rfl
  | succ n ih =>
    intro l
    cases l with
    | nil => rfl
    | cons y l => simp [insertAt, ih]

/-- Inserting `x` at the `bisect_right` insertion point keeps the list sorted. -/
theorem insertAt_bisectRight_sorted (x : Nat) :
    ∀ (l : List Nat), List.Pairwise (· ≤ ·) l →
      List.Pairwise (· ≤ ·) (insertAt (bisectRight l x) x l) := by
  intro l
  induction l with
  | nil => intro _; simp [bisectRight, insertAt]
  | cons y l ih =>
    intro h
    rcases List.pairwise_cons.mp h with ⟨hy, hl⟩
    by_cases hyx : y ≤ x
    · have hc : bisectRight (y :: l) x = bisectRight l x + 1 := by
        simp [bisectRight, List.countP_cons, hyx, Nat.add_comm]
      rw [hc]
      show List.Pairwise (· ≤ ·) (y :: insertAt (bisectRight l x) x l)
      refine List.pairwise_cons.mpr ⟨?_, ih hl⟩
      intro z hz
      rcases mem_insertAt x z (bisectRight l x) l hz with h' | h'
      · rw [h']; exact hyx
      · exact hy z h'
    · have hall : ∀ z ∈ l, ¬ z ≤ x := by
        intro z hz hzx
        exact hyx (le_trans (hy z hz) hzx)
      have hc : bisectRight (y :: l) x = 0 := by
        simp only [bisectRight, List.countP_cons]
        rw [List.countP_eq_zero.mpr (by intro z hz; simpa using hall z hz)]
        simp [hyx]
      rw [hc]
      show List.Pairwise (· ≤ ·) (x :: y :: l)
      refine List.pairwise_cons.mpr ⟨?_, h⟩
      intro z hz
      rcases List.mem_cons.mp hz with h' | h'
      · rw [h']; omega
      · exact le_trans (by omega) (hy z h')

/-- C4 (amended): `add` is a no-op exactly when the chunk just before the
`bisect_right` insertion point covers the offset being added; otherwise, when
`add` succeeds, the new chunk and its offset are inserted at the insertion
point, preserving sortedness of the offset index and its alignment with the
chunk list. -/
theorem c4_add_idempotent_insert (devices : Nat → Option Nat) (st : ChunkStreamState)
    (offset : Nat) (ck : ChunkRec) (st' : ChunkStreamState) :
    (coveredAt st offset = true → addChunk devices st offset ck = .ok st)
    ∧ (coveredAt st offset = false → addChunk devices st offset ck = .ok st' →
        st'.chunkOffsets = insertAt (bisectRight st.chunkOffsets offset) offset st.chunkOffsets
        ∧ st'.chunks.length = st.chunks.length + 1
        ∧ (List.Pairwise (· ≤ ·) st.chunkOffsets →
            List.Pairwise (· ≤ ·) st'.chunkOffsets)
        ∧ (st.chunkOffsets = st.chunks.map Chunk.offset →
            st'.chunkOffsets = st'.chunks.map Chunk.offset)) := by
  constructor
  · intro hcov
    unfold addChunk
    rw [if_pos hcov]
  · intro hcov hok
    unfold addChunk at hok
    rw [hcov] at hok
    simp only [Bool.false_eq_true, if_false] at hok
    cases hattr : raidAttributes (ck.ctype &&& BG_PROFILE_MASK) with
    | none => rw [hattr] at hok; exact absurd hok (by simp)
    | some t =>
      obtain ⟨nc, np, tol⟩ := t
      rw [hattr] at hok
      simp only [] at hok
      cases hbs : buildStripes devices tol ck.stripe 0 with
      | error e => rw [hbs] at hok; exact absurd hok (by simp [Except.map])
      | ok stripes =>
        rw [hbs] at hok
        simp only [Except.map, Except.ok.injEq] at hok
        subst hok
        refine ⟨rfl, ?_, ?_, ?_⟩
        · exact length_insertAt _ _ _
        · intro hs
          exact insertAt_bisectRight_sorted offset st.chunkOffsets hs
        · intro halign
          show insertAt (bisectRight st.chunkOffsets offset) offset st.chunkOffsets =
            (insertAt (bisectRight st.chunkOffsets offset) _ st.chunks).map Chunk.offset
          rw [map_insertAt, ← halign]

/-- C4 counterexample: two `add` calls can produce a state with overlapping
chunks: `add(10, len 5)` then `add(0, len 100)`.  A third `add(16, …)` then
inserts a new chunk even though the installed chunk at offset 0 covers
offset 16 — the claimed "no-op whenever some installed chunk covers the
offset" is false. -/
def c4devices : Nat → Option Nat := fun _ => some 1

def c4ck1 : ChunkRec := ⟨5, 0x1000, 2, 1, 0, [(1, 0, 0)]⟩

def c4ck2 : ChunkRec := ⟨100, 0x1000, 2, 1, 0, [(1, 0, 0)]⟩

def c4ck3 : ChunkRec := ⟨5, 0x1000, 2, 1, 0, [(1, 0, 0)]⟩

def c4st1 : ChunkStreamState :=
  ⟨[⟨10, 5, 0x1000, 2, 1, 0, 1, [⟨some 1, 0, 1, 0⟩]⟩], [10]⟩

def c4st2 : ChunkStreamState :=
  ⟨[⟨0, 100, 0x1000, 2, 1, 0, 1, [⟨some 1, 0, 1, 0⟩]⟩,
    ⟨10, 5, 0x1000, 2, 1, 0, 1, [⟨some 1, 0, 1, 0⟩]⟩], [0, 10]⟩

def c4st3 : ChunkStreamState :=
  ⟨[⟨0, 100, 0x1000, 2, 1, 0, 1, [⟨some 1, 0, 1, 0⟩]⟩,
    ⟨10, 5, 0x1000, 2, 1, 0, 1, [⟨some 1, 0, 1, 0⟩]⟩,
    ⟨16, 5, 0x1000, 2, 1, 0, 1, [⟨some 1, 0, 1, 0⟩]⟩], [0, 10, 16]⟩

theorem c4_counterexample :
    addChunk c4devices ⟨[], []⟩ 10 c4ck1 = .ok c4st1
    ∧ addChunk c4devices c4st1 0 c4ck2 = .ok c4st2
    ∧ (c4st2.chunks.any fun c => decide (c.offset ≤ 16 ∧ 16 < c.offset + c.length)) = true
    ∧ addChunk c4devices c4st2 16 c4ck3 = .ok c4st3
    ∧ c4st2.chunks.length = 2 ∧ c4st3.chunks.length = 3 :=
  ⟨rfl, rfl, by decide, rfl, rfl, rfl⟩

theorem c4_add_idempotent_insert_witness :
    addChunk c4devices c4st2 5 c4ck3 = .ok c4st2 :=
  (c4_add_idempotent_insert c4devices c4st2 5 c4ck3 c4st2).1 rfl

/-! ### C9: mirror failover -/

/-- Whether the stripe the reader would pick for index `i` has a present
device (`chunk.stripes[i % num_stripes].fh is not None`). -/
def stripePresent (c : Chunk) (i : Nat) : Bool :=
  (c.stripes.getD (i % c.num_stripes) default).fh.isSome

/-- First index `j ≥ idx` (searching at most `fuel` steps) whose stripe has a
present device — the spec's "advance `stripe_idx` modulo `num_stripes` until a
present device is found". -/
def firstPresentFrom (c : Chunk) : Nat → Nat → Option Nat
  | 0, idx => if stripePresent c idx then some idx else none
  | fuel + 1, idx => if stripePresent c idx then some idx else firstPresentFrom c fuel (idx + 1)

def stepOk : Option (Except Unit (Stripe × Nat × Nat)) → Bool
  | some (.ok _) => true
  | _ => false

theorem failoverStripe_eq_firstPresent (c : Chunk)
    (hndup : c.ctype &&& BG_DUP = 0) (hn56 : c.ctype &&& BG_RAID56_MASK = 0) :
    ∀ (fuel idx : Nat),
      failoverStripe c fuel idx =
        (firstPresentFrom c fuel idx).map
          (fun j => .ok (j, c.stripes.getD (j % c.num_stripes) default)) := by
  intro fuel
  induction fuel with
  | zero =>
    intro idx
    unfold failoverStripe firstPresentFrom stripePresent
    by_cases h : (c.stripes.getD (idx % c.num_stripes) default).fh.isSome <;> simp [h]
  | succ fuel ih =>
    intro idx
    unfold failoverStripe firstPresentFrom stripePresent
    simp only []
    by_cases h : (c.stripes.getD (idx % c.num_stripes) default).fh.isSome = true
    · rw [if_pos h, if_pos h]
      rfl
    · rw [if_neg h, if_neg h, hndup, hn56]
      rw [if_neg (by simp), if_neg (by simp)]
      exact ih (idx + 1)

theorem firstPresentFrom_isSome (c : Chunk) :
    ∀ (fuel idx : Nat), (∃ k, k ≤ fuel ∧ stripePresent c (idx + k) = true) →
      (firstPresentFrom c fuel idx).isSome = true := by
  intro fuel
  induction fuel with
  | zero =>
    intro idx ⟨k, hk, hp⟩
    have : k = 0 := Nat.le_zero.mp hk
    subst this
    simp only [Nat.add_zero] at hp
    simp [firstPresentFrom, hp]
  | succ fuel ih =>
    intro idx ⟨k, hk, hp⟩
    unfold firstPresentFrom
    by_cases h : stripePresent c idx
    · simp [h]
    · rw [if_neg (by simp [h])]
      apply ih
      cases k with
      | zero => simp only [Nat.add_zero] at hp; exact absurd hp (by simp [h])
      | succ k => exact ⟨k, by omega, by rw [show idx + 1 + k = idx + (k + 1) from by omega]; exact hp⟩

/-- `firstPresentFrom` indeed returns the least present index at or after the
start: its result is present, and every index from the start up to it is
missing. -/
theorem firstPresentFrom_least (c : Chunk) :
    ∀ (fuel idx j : Nat), firstPresentFrom c fuel idx = some j →
      stripePresent c j = true ∧ idx ≤ j ∧
        ∀ i, idx ≤ i → i < j → stripePresent c i = false := by
  intro fuel
  induction fuel with
  | zero =>
    intro idx j h
    unfold firstPresentFrom at h
    by_cases hp : stripePresent c idx
    · rw [if_pos hp] at h
      cases h
      exact ⟨hp, Nat.le_refl _, fun i h1 h2 => absurd h1 (by omega)⟩
    · rw [if_neg hp] at h
      cases h
  | succ fuel ih =>
    intro idx j h
    unfold firstPresentFrom at h
    by_cases hp : stripePresent c idx
    · rw [if_pos hp] at h
      cases h
      exact ⟨hp, Nat.le_refl _, fun i h1 h2 => absurd h1 (by omega)⟩
    · rw [if_neg hp] at h
      obtain ⟨h1, h2, h3⟩ := ih (idx + 1) j h
      refine ⟨h1, by omega, ?_⟩
      intro i hi1 hi2
      rcases Nat.eq_or_lt_of_le hi1 with he | hl
      · rw [← he]; simpa using hp
      · exact h3 i hl hi2

/-- If at most `tol < num_stripes` stripes are missing, some index within
`num_stripes` steps of any start is present. -/
theorem exists_present_within (c : Chunk) (tol : Nat)
    (hlen : c.stripes.length = c.num_stripes)
    (hmiss : c.stripes.countP (fun s => s.fh.isNone) ≤ tol)
    (htol : tol < c.num_stripes) (idx : Nat) :
    ∃ k, k ≤ c.num_stripes ∧ stripePresent c (idx + k) = true := by
  have hn : 0 < c.num_stripes := by omega
  have hx : ∃ s ∈ c.stripes, s.fh.isSome = true := by
    by_contra hall
    push_neg at hall
    have hc := List.countP_eq_length.mpr
      (fun (s : Stripe) (hs : s ∈ c.stripes) => by
        have h2 : s.fh = none := by
          have h3 := hall s hs
          cases hfh : s.fh with
          | none => rfl
          | some v => rw [hfh] at h3; exact absurd rfl h3
        show s.fh.isNone = true
        rw [h2]
        rfl)
    rw [hc] at hmiss
    omega
  obtain ⟨s, hs, hpres⟩ := hx
  obtain ⟨⟨m, hm⟩, hget⟩ := List.mem_iff_get.mp hs
  have hmlt : m < c.num_stripes := by rw [← hlen]; exact hm
  have ha : idx % c.num_stripes < c.num_stripes := Nat.mod_lt _ hn
  have hsget : c.stripes.getD m default = s := by
    rw [List.getD_eq_getElem _ _ (by omega), ← hget]
    simp [List.get_eq_getElem]
  by_cases hca : idx % c.num_stripes ≤ m
  · refine ⟨m - idx % c.num_stripes, by omega, ?_⟩
    have hmod : (idx + (m - idx % c.num_stripes)) % c.num_stripes = m := by
      rw [Nat.add_mod,
        Nat.mod_eq_of_lt (show m - idx % c.num_stripes < c.num_stripes from by omega),
        (by omega : idx % c.num_stripes + (m - idx % c.num_stripes) = m)]
      exact Nat.mod_eq_of_lt hmlt
    rw [stripePresent, hmod, hsget]
    exact hpres
  · refine ⟨m + c.num_stripes - idx % c.num_stripes, by omega, ?_⟩
    have hmod : (idx + (m + c.num_stripes - idx % c.num_stripes)) % c.num_stripes = m := by
      rw [Nat.add_mod,
        Nat.mod_eq_of_lt
          (show m + c.num_stripes - idx % c.num_stripes < c.num_stripes from by omega),
        (by omega :
          idx % c.num_stripes + (m + c.num_stripes - idx % c.num_stripes) = m + c.num_stripes),
        Nat.add_mod_right]
      exact Nat.mod_eq_of_lt hmlt
    rw [stripePresent, hmod, hsget]
    exact hpres

theorem failoverStripe_at_present (c : Chunk) (hp : stripePresent c 1 = true) :
    ∀ fuel, failoverStripe c fuel 1 =
      some (.ok (1, c.stripes.getD (1 % c.num_stripes) default)) := by
  have hp' : (c.stripes.getD (1 % c.num_stripes) default).fh.isSome = true := hp
  intro fuel
  cases fuel with
  | zero =>
    unfold failoverStripe
    simp only []
    rw [if_pos hp']
  | succ m =>
    unfold failoverStripe
    simp only []
    rw [if_pos hp']

/-- C9: for a chunk accepted by `add` (at most `tolerated_failures < num_stripes`
missing stripes), when a read hits a missing stripe: on non-RAID5/6 non-DUP
profiles the reader advances `stripe_idx` until the first present device
(`firstPresentFrom`) and the read step succeeds; for DUP the alternate index is
literally `1`; on RAID5/6 the read raises (UNSUPPORTED) instead of
reconstructing from parity. -/
theorem c9_missing_device_failover (c : Chunk) (tol si : Nat)
    (hlen : c.stripes.length = c.num_stripes)
    (hmiss : c.stripes.countP (fun s => s.fh.isNone) ≤ tol)
    (htol : tol < c.num_stripes) :
    (c.ctype &&& BG_DUP = 0 → c.ctype &&& BG_RAID56_MASK = 0 →
        failoverStripe c c.num_stripes si =
          (firstPresentFrom c c.num_stripes si).map
            (fun j => .ok (j, c.stripes.getD (j % c.num_stripes) default))
        ∧ (firstPresentFrom c c.num_stripes si).isSome = true
        ∧ (∀ off len, stepOk (chunkReadStep c off len) = true))
    ∧ (∀ fuel idx j, firstPresentFrom c fuel idx = some j →
        stripePresent c j = true ∧ idx ≤ j ∧
          ∀ i, idx ≤ i → i < j → stripePresent c i = false)
    ∧ (c.ctype &&& BG_DUP ≠ 0 → stripePresent c si = false →
        stripePresent c 1 = true →
        failoverStripe c c.num_stripes si =
          some (.ok (1, c.stripes.getD (1 % c.num_stripes) default)))
    ∧ (c.ctype &&& BG_DUP = 0 → c.ctype &&& BG_RAID56_MASK ≠ 0 →
        stripePresent c si = false →
        failoverStripe c c.num_stripes si = some (.error ())) := by
  have hn : 0 < c.num_stripes := by omega
  refine ⟨?_, ?_, ?_, ?_⟩
  · intro hndup hn56
    refine ⟨failoverStripe_eq_firstPresent c hndup hn56 _ _, ?_, ?_⟩
    · exact firstPresentFrom_isSome c _ _ (exists_present_within c tol hlen hmiss htol si)
    · intro off len
      unfold chunkReadStep
      simp only []
      rw [failoverStripe_eq_firstPresent c hndup hn56]
      cases hfp : firstPresentFrom c c.num_stripes
          ((getStripeReadInfo c (off - c.offset)).2.1) with
      | none =>
        have hsome := firstPresentFrom_isSome c c.num_stripes _
          (exists_present_within c tol hlen hmiss htol
            ((getStripeReadInfo c (off - c.offset)).2.1))
        rw [hfp] at hsome
        simp at hsome
      | some j => rfl
  · exact fun fuel idx j h => firstPresentFrom_least c fuel idx j h
  · intro hdup hm1 hp1
    obtain ⟨m, hm⟩ : ∃ m, c.num_stripes = m + 1 := ⟨c.num_stripes - 1, by omega⟩
    have hm1' : ¬ (c.stripes.getD (si % c.num_stripes) default).fh.isSome = true := by
      rw [show ((c.stripes.getD (si % c.num_stripes) default).fh.isSome = true) =
        (stripePresent c si = true) from rfl, hm1]
      simp
    conv_lhs => rw [hm]
    unfold failoverStripe
    simp only []
    rw [if_neg hm1', if_pos hdup]
    exact failoverStripe_at_present c hp1 m
  · intro hndup h56 hm1
    obtain ⟨m, hm⟩ : ∃ m, c.num_stripes = m + 1 := ⟨c.num_stripes - 1, by omega⟩
    have hm1' : ¬ (c.stripes.getD (si % c.num_stripes) default).fh.isSome = true := by
      rw [show ((c.stripes.getD (si % c.num_stripes) default).fh.isSome = true) =
        (stripePresent c si = true) from rfl, hm1]
      simp
    conv_lhs => rw [hm]
    unfold failoverStripe
    simp only []
    rw [if_neg hm1', if_neg (by simp [hndup]), if_pos h56]

/-- Concrete degraded RAID1 chunk (first device missing) witnessing C9. -/
def c9demo : Chunk :=
  ⟨0, 0x10000, 0x10000, 0x11, 2, 1, 1,
    [⟨none, 0, 1, 0⟩, ⟨some 2, 0x5000, 2, 0⟩]⟩

theorem c9_missing_device_failover_witness :
    failoverStripe c9demo 2 0 =
      (firstPresentFrom c9demo 2 0).map
        (fun j => .ok (j, c9demo.stripes.getD (j % c9demo.num_stripes) default)) :=
  ((c9_missing_device_failover c9demo 1 0 rfl (by decide) (by decide)).1 rfl rfl).1

/-! ### C8: directory name hash (Subvolume.get, btrfs.py) -/

/-- Reflected CRC-32C polynomial. -/
def CRC32C_POLY : Nat := 0x82F63B78

def crc32cBitStep (reg : Nat) : Nat :=
  if reg % 2 = 1 then (reg / 2) ^^^ CRC32C_POLY else reg / 2

def crc32cByteStep (reg b : Nat) : Nat :=
  crc32cBitStep (crc32cBitStep (crc32cBitStep (crc32cBitStep
    (crc32cBitStep (crc32cBitStep (crc32cBitStep (crc32cBitStep (reg ^^^ b % 256))))))))

/-- Plain table-fold of the CRC-32C shift register over the data, no
input/output complement. -/
def crc32cFold (reg : Nat) (data : List Nat) : Nat := data.foldl crc32cByteStep reg

/-- The `crc32c` extend function the source imports (`google_crc32c.extend` /
`dissect.util.crc32c.update`): complements the caller's running CRC into the
register, folds, and complements the result back. -/
def crc32cExtend (crc : Nat) (data : List Nat) : Nat :=
  crc32cFold (crc ^^^ 0xFFFFFFFF) data ^^^ 0xFFFFFFFF

/-- The hash computed by `Subvolume.get`:
`part_hash = (crc32c(1, part) ^ 0xFFFFFFFF) & 0xFFFFFFFF`. -/
def nameHash (part : List Nat) : Nat :=
  (crc32cExtend 1 part ^^^ 0xFFFFFFFF) &&& 0xFFFFFFFF

/-- The claim's description of the hash: the CRC32C checksum of the name with
the shift register initialised to `0xFFFFFFFE` (`~1`; the checksum convention
applies the final output complement), XORed with `0xFFFFFFFF`, masked to
32 bits. -/
def claimNameHash (part : List Nat) : Nat :=
  ((crc32cFold 0xFFFFFFFE part ^^^ 0xFFFFFFFF) ^^^ 0xFFFFFFFF) &&& 0xFFFFFFFF

def BTRFS_DIR_ITEM_KEY : Nat := 84
def BTRFS_ROOT_ITEM_KEY : Nat := 132
def BTRFS_INODE_ITEM_KEY : Nat := 1

inductive GetError where
  | fileNotFound
  | unknownDirItemType
deriving Repr, DecidableEq

inductive SegmentResult where
  | subvolumeRoot (objectid : Nat)
  | childInode (objectid : Nat) (ftype : Nat)
deriving Repr, DecidableEq

/-- One path-segment lookup of `Subvolume.get`: hash the name, `find` the
`(inum, DIR_ITEM_KEY, hash)` item, dispatch on `dir_item.location.type`.
`find` abstracts `BTree.find` on the subvolume's tree and returns the parsed
`(location.type, location.objectid, dir_item.type)` of the hit, `none` on the
`KeyError` miss. -/
def getSegmentStep (find : Nat → Nat → Nat → Option (Nat × Nat × Nat))
    (inum : Nat) (part : List Nat) : Except GetError SegmentResult :=
  match find inum BTRFS_DIR_ITEM_KEY (nameHash part) with
  | none => .error .fileNotFound
  | some (ltype, lobjectid, ftype) =>
    if ltype = BTRFS_ROOT_ITEM_KEY then .ok (.subvolumeRoot lobjectid)
    else if ltype = BTRFS_INODE_ITEM_KEY then .ok (.childInode lobjectid ftype)
    else .error .unknownDirItemType

/-- C8: the directory-lookup hash equals the claimed CRC32C form (register
seeded with `0xFFFFFFFE`, result XORed with `0xFFFFFFFF`, masked to 32 bits);
the lookup key is `(inum, DIR_ITEM_KEY, hash)` and a miss is a NOT-FOUND
error. -/
theorem c8_dir_name_hash (find : Nat → Nat → Nat → Option (Nat × Nat × Nat))
    (inum : Nat) (part : List Nat) :
    nameHash part = claimNameHash part
    ∧ (find inum BTRFS_DIR_ITEM_KEY (claimNameHash part) = none →
        getSegmentStep find inum part = .error .fileNotFound) := by
  have h1 : nameHash part = claimNameHash part := by
    unfold nameHash claimNameHash crc32cExtend
    rw [(by decide : (1 : Nat) ^^^ 0xFFFFFFFF = 0xFFFFFFFE)]
  refine ⟨h1, ?_⟩
  intro hmiss
  unfold getSegmentStep
  rw [h1, hmiss]

theorem c8_dir_name_hash_witness :
    nameHash [97, 98, 99] = claimNameHash [97, 98, 99]
    ∧ getSegmentStep (fun _ _ _ => none) 256 [97, 98, 99] = .error .fileNotFound :=
  ⟨(c8_dir_name_hash (fun _ _ _ => none) 256 [97, 98, 99]).1,
   (c8_dir_name_hash (fun _ _ _ => none) 256 [97, 98, 99]).2 rfl⟩

/-! ## Extent stream and INode.open (stream.py, btrfs.py) -/

/-- `Extent` named tuple of stream.py. -/
structure Extent where
  compression : Nat
  encryption : Nat
  disk_offset : Nat
  disk_length : Nat
  offset : Nat
  length : Nat
deriving Repr, DecidableEq, Inhabited

/-- A parsed `EXTENT_DATA` item as consumed by `INode.open`.  `inline` carries
the raw leaf item data (header included); `reg` carries the parsed
`btrfs_file_extent_item_reg` fields, with `rtype` distinguishing
`BTRFS_FILE_EXTENT_REG` (1) from `BTRFS_FILE_EXTENT_PREALLOC` (2). -/
inductive ExtItem where
  | inline (compression encryption : Nat) (itemData : List Nat)
  | reg (rtype compression encryption disk_bytenr disk_num_bytes eoffset num_bytes : Nat)
deriving Repr, DecidableEq

/-- `len(c_btrfs.btrfs_file_extent_item_inline)` = 8+8+1+1+2+1 bytes. -/
def fileExtentInlineHeaderLen : Nat := 21

/-- Result of `INode.open`: an in-memory `BufferedStream` or an
`ExtentStream`. -/
inductive OpenResult where
  | buffered (buf : List Nat) (size : Nat)
  | extentStream (extents : List Extent) (size : Nat)
deriving Repr, DecidableEq

/-- `decode_extent` with the decompressors abstracted as the oracle `dec`
(compression id, compressed bytes ↦ decompressed bytes); compression 0
(`BTRFS_COMPRESS_NONE`) passes the buffer through, and a nonzero encryption
byte raises (`none`). -/
def decodeExtentM (dec : Nat → List Nat → List Nat) (compression encryption : Nat)
    (buf : List Nat) : Option (List Nat) :=
  if encryption ≠ 0 then none
  else some (if compression = 0 then buf else dec compression buf)

/-- The `EXTENT_DATA` loop of `INode.open`: accumulate extents at the running
file offset, synthesising sparse gap records, returning early on an INLINE
item, skipping items whose type is not `BTRFS_FILE_EXTENT_REG`, and appending
the trailing sparse record when the assembled offset is below `size`. -/
def openLoop (dec : Nat → List Nat → List Nat) (size : Nat) :
    List (Nat × ExtItem) → Nat → List Extent → Option OpenResult
  | [], offset, acc =>
      some (.extentStream
        (acc ++ (if offset < size then [⟨0, 0, 0, 0, 0, size - offset⟩] else [])) size)
  | (_koff, .inline c e d) :: _, _, _ =>
      (decodeExtentM dec c e (d.drop fileExtentInlineHeaderLen)).map
        (fun buf => .buffered buf size)
  | (koff, .reg rtype c e db dn eo nb) :: rest, offset, acc =>
      if rtype = 1 then
        let acc' := if offset < koff then acc ++ [⟨0, 0, 0, 0, 0, koff - offset⟩] else acc
        let offset' := if offset < koff then koff else offset
        openLoop dec size rest (offset' + nb) (acc' ++ [⟨c, e, db, dn, eo, nb⟩])
      else openLoop dec size rest offset acc

/-- `INode.open`: size-0 inodes return an empty buffer without touching the
tree; otherwise the `EXTENT_DATA` items are assembled. -/
def inodeOpen (dec : Nat → List Nat → List Nat) (size : Nat)
    (items : List (Nat × ExtItem)) : Option OpenResult :=
  if size = 0 then some (.buffered [] 0) else openLoop dec size items 0 []

/-- `ExtentStream._extent_offsets`: cumulative start of each extent after the
first (zero cumulative offsets are skipped). -/
def extentOffsetsGo : List Extent → Nat → List Nat
  | [], _ => []
  | e :: rest, offset =>
      (if offset ≠ 0 then [offset] else []) ++ extentOffsetsGo rest (offset + e.length)

def extentOffsets (l : List Extent) : List Nat := extentOffsetsGo l 0

/-- Reading `n` bytes at `pos` from the logical stream, modelled as a total
byte function (a well-formed image always returns full reads). -/
def readDisk (disk : Nat → Nat) (pos n : Nat) : List Nat :=
  (List.range n).map (fun i => disk (pos + i))

/-- The loop of `ExtentStream._read` from the extent located by the initial
bisect: `curStart` is the cumulative file offset of the first extent of the
remaining list. -/
def extentReadLoop (dec : Nat → List Nat → List Nat) (disk : Nat → Nat) (size : Nat) :
    List Extent → Nat → Nat → Nat → Option (List Nat)
  | [], _, _, _ => some []
  | e :: rest, curStart, offset, length =>
    if length = 0 then some []
    else
      let extentPos := offset - curStart
      if e.length < extentPos then some []
      else
        let extentRemaining := e.length - extentPos
        let extentPosD := extentPos + e.offset
        let readCount := min (size - offset) (min extentRemaining length)
        let piece : Option (List Nat) :=
          if e.disk_offset = 0 ∧ e.disk_length = 0 then
            some (List.replicate readCount 0)
          else if e.compression = 0 ∧ e.encryption = 0 then
            some (readDisk disk (e.disk_offset + extentPosD) readCount)
          else
            (decodeExtentM dec e.compression e.encryption
                (readDisk disk e.disk_offset e.disk_length)).map
              (fun buf =>
                if extentPosD ≠ 0 ∨ readCount ≠ buf.length then
                  (buf.drop extentPosD).take readCount
                else buf)
        match piece with
        | none => none
        | some p =>
          (extentReadLoop dec disk size rest (curStart + e.length)
            (offset + readCount) (length - readCount)).map (fun l => p ++ l)

/-- `ExtentStream._read`. -/
def extentStreamRead (dec : Nat → List Nat → List Nat) (disk : Nat → Nat)
    (extents : List Extent) (size offset length : Nat) : Option (List Nat) :=
  let idx := bisectRight (extentOffsets extents) offset
  let curStart := if idx = 0 then 0 else (extentOffsets extents).getD (idx - 1) 0
  extentReadLoop dec disk size (extents.drop idx) curStart offset length

/-- Reading the stream returned by `open` to exhaustion.  A `BufferedStream`
of declared size `n` over a buffer yields `buf.take n`; an `AlignedStream`
serves `[0, size)` through `_read` and clips at its declared size. -/
def openReadAll (dec : Nat → List Nat → List Nat) (disk : Nat → Nat) :
    OpenResult → Option (List Nat)
  | .buffered buf size => some (buf.take size)
  | .extentStream exts size =>
      (extentStreamRead dec disk exts size 0 size).map (fun l => l.take size)

/-- Sum of the `length` fields of an extent list. -/
def sumLengths (l : List Extent) : Nat := (l.map Extent.length).sum

/-- Per-extent well-formedness used by the read-length argument: encryption is
clear and a compressed extent's decoded buffer covers the slice the reader
takes from it. -/
def ExtOk (dec : Nat → List Nat → List Nat) (disk : Nat → Nat) (e : Extent) : Prop :=
  e.encryption = 0 ∧
  (¬ (e.disk_offset = 0 ∧ e.disk_length = 0) → e.compression ≠ 0 →
    e.offset + e.length ≤ (dec e.compression (readDisk disk e.disk_offset e.disk_length)).length)

/-- Well-formedness of the `EXTENT_DATA` items of a regular (non-inline)
inode, relative to the running assembled offset: only REG/PREALLOC items,
clear encryption, REG items sorted and non-overlapping with positive lengths,
coverage ending at or below `size`, and compressed extents decoding to at
least the referenced range. -/
def WfItemsFrom (dec : Nat → List Nat → List Nat) (disk : Nat → Nat) (size : Nat) :
    Nat → List (Nat × ExtItem) → Prop
  | _, [] => True
  | offset, (koff, .reg rtype c e db dn eo nb) :: rest =>
      e = 0 ∧
      ((rtype = 1 ∧ offset ≤ koff ∧ 0 < nb ∧ koff + nb ≤ size ∧
          (¬ (db = 0 ∧ dn = 0) → c ≠ 0 → eo + nb ≤ (dec c (readDisk disk db dn)).length) ∧
          WfItemsFrom dec disk size (koff + nb) rest)
        ∨ (rtype = 2 ∧ WfItemsFrom dec disk size offset rest))
  | _, (_, .inline _ _ _) :: _ => False

/-- Well-formedness of an inode's extent data: size 0, or an inline head item
whose decoded payload has exactly `size` bytes, or well-formed REG/PREALLOC
items. -/
def WfInode (dec : Nat → List Nat → List Nat) (disk : Nat → Nat) (size : Nat)
    (items : List (Nat × ExtItem)) : Prop :=
  size = 0 ∨
  (0 < size ∧
    match items with
    | (_, .inline c e d) :: _ =>
        e = 0 ∧
        (if c = 0 then d.drop fileExtentInlineHeaderLen
         else dec c (d.drop fileExtentInlineHeaderLen)).length = size
    | _ => WfItemsFrom dec disk size 0 items)

theorem readDisk_length (disk : Nat → Nat) (pos n : Nat) :
    (readDisk disk pos n).length = n := by
  simp [readDisk]

/-- Reading a whole tail of extents starting at an extent boundary yields
exactly the summed extent lengths. -/
theorem extentReadLoop_length (dec : Nat → List Nat → List Nat) (disk : Nat → Nat)
    (size : Nat) :
    ∀ (exts : List Extent) (curOffset len : Nat),
      (∀ e ∈ exts, ExtOk dec disk e) →
      sumLengths exts = len →
      curOffset + len ≤ size →
      ∃ l, extentReadLoop dec disk size exts curOffset curOffset len = some l ∧
        l.length = len := by
  intro exts
  induction exts with
  | nil =>
    intro curOffset len _ hsum _
    refine ⟨[], ?_, ?_⟩
    · rfl
    · simp [sumLengths] at hsum
      simp [← hsum]
  | cons e rest ih =>
    intro curOffset len hok hsum hle
    have hsum' : e.length + sumLengths rest = len := by
      simp [sumLengths] at hsum ⊢
      omega
    by_cases hlen0 : len = 0
    · subst hlen0
      exact ⟨[], by unfold extentReadLoop; rw [if_pos rfl], rfl⟩
    · unfold extentReadLoop
      rw [if_neg hlen0]
      simp only []
      have hpos0 : curOffset - curOffset = 0 := by omega
      rw [hpos0]
      rw [if_neg (by omega)]
      have helen : e.length ≤ len := by omega
      have hrc : min (size - curOffset) (min (e.length - 0) len) = e.length := by
        omega
      rw [hrc]
      have hek := hok e (List.mem_cons_self e rest)
      obtain ⟨henc, hcov⟩ := hek
      have ihres := ih (curOffset + e.length) (sumLengths rest)
        (fun x hx => hok x (List.mem_cons_of_mem e hx)) rfl (by omega)
      obtain ⟨l', hl', hlen'⟩ := ihres
      have hrest : len - e.length = sumLengths rest := by omega
      by_cases hsp : e.disk_offset = 0 ∧ e.disk_length = 0
      · rw [if_pos hsp]
        refine ⟨List.replicate e.length 0 ++ l', ?_, ?_⟩
        · rw [hrest, hl']
          rfl
        · simp [hlen']
          omega
      · rw [if_neg hsp]
        by_cases hqc : e.compression = 0 ∧ e.encryption = 0
        · rw [if_pos hqc]
          refine ⟨readDisk disk (e.disk_offset + (0 + e.offset)) e.length ++ l', ?_, ?_⟩
          · rw [hrest, hl']
            rfl
          · simp [readDisk_length, hlen']
            omega
        · rw [if_neg hqc]
          have hcne : e.compression ≠ 0 := by
            intro hc0
            exact hqc ⟨hc0, henc⟩
          have hdec : decodeExtentM dec e.compression e.encryption
              (readDisk disk e.disk_offset e.disk_length) =
              some (dec e.compression (readDisk disk e.disk_offset e.disk_length)) := by
            unfold decodeExtentM
            rw [if_neg (by simp [henc]), if_neg hcne]
          rw [hdec]
          simp only [Option.map_some']
          set buf := dec e.compression (readDisk disk e.disk_offset e.disk_length) with hbuf
          have hcovlen : e.offset + e.length ≤ buf.length := hcov hsp hcne
          by_cases hsl : 0 + e.offset ≠ 0 ∨ e.length ≠ buf.length
          · rw [if_pos hsl]
            refine ⟨(buf.drop (0 + e.offset)).take e.length ++ l', ?_, ?_⟩
            · rw [hrest, hl']
              rfl
            · simp [hlen', List.length_take, List.length_drop]
              omega
          · rw [if_neg hsl]
            push_neg at hsl
            refine ⟨buf ++ l', ?_, ?_⟩
            · rw [hrest, hl']
              rfl
            · simp [hlen']
              omega

theorem extentOffsetsGo_pos :
    ∀ (l : List Extent) (off x : Nat), x ∈ extentOffsetsGo l off → 0 < x := by
  intro l
  induction l with
  | nil => intro off x hx; simp [extentOffsetsGo] at hx
  | cons e rest ih =>
    intro off x hx
    unfold extentOffsetsGo at hx
    rcases List.mem_append.mp hx with h | h
    · by_cases hoff : off ≠ 0
      · rw [if_pos hoff] at h
        simp at h
        omega
      · rw [if_neg hoff] at h
        simp at h
    · exact ih (off + e.length) x h

theorem bisectRight_extentOffsets_zero (exts : List Extent) :
    bisectRight (extentOffsets exts) 0 = 0 := by
  unfold bisectRight
  rw [List.countP_eq_zero.mpr]
  intro x hx
  have := extentOffsetsGo_pos exts 0 x hx
  simp
  omega

/-- File placement of an extent list: each extent paired with its cumulative
start offset. -/
def placeExts : List Extent → Nat → List (Nat × Extent)
  | [], _ => []
  | e :: rest, off => (off, e) :: placeExts rest (off + e.length)

/-- An extent record materialised verbatim from a REG item at its key
offset. -/
def FromItems (items : List (Nat × ExtItem)) (start : Nat) (ex : Extent) : Prop :=
  ∃ rtype c en db dn eo nb, (start, ExtItem.reg rtype c en db dn eo nb) ∈ items ∧
    rtype = 1 ∧ ex = ⟨c, en, db, dn, eo, nb⟩

theorem placeExts_ge :
    ∀ (l : List Extent) (off : Nat) (pe : Nat × Extent), pe ∈ placeExts l off → off ≤ pe.1 := by
  intro l
  induction l with
  | nil => intro off pe h; simp [placeExts] at h
  | cons e rest ih =>
    intro off pe h
    unfold placeExts at h
    rcases List.mem_cons.mp h with h | h
    · rw [h]
    · have := ih (off + e.length) pe h
      omega

theorem placeExts_pairwise :
    ∀ (l : List Extent) (off : Nat),
      List.Pairwise (fun a b : Nat × Extent => a.1 + a.2.length ≤ b.1) (placeExts l off) := by
  intro l
  induction l with
  | nil => intro off; simp [placeExts]
  | cons e rest ih =>
    intro off
    unfold placeExts
    refine List.pairwise_cons.mpr ⟨?_, ih (off + e.length)⟩
    intro pe hpe
    exact placeExts_ge rest (off + e.length) pe hpe

/-- The assembly loop of `INode.open` on well-formed REG/PREALLOC items:
the produced tail tiles `[off, size)` exactly, every produced extent is
well-formed with positive length, every produced extent is either a REG item's
record placed at its key offset or a synthesised sparse record, and every REG
item's record is placed at its key offset. -/
theorem openLoop_assembly (dec : Nat → List Nat → List Nat) (disk : Nat → Nat) (size : Nat) :
    ∀ (items : List (Nat × ExtItem)) (off : Nat) (acc : List Extent),
      WfItemsFrom dec disk size off items → off ≤ size →
      ∃ exts, openLoop dec size items off acc = some (.extentStream (acc ++ exts) size) ∧
        sumLengths exts = size - off ∧
        (∀ e ∈ exts, ExtOk dec disk e ∧ 0 < e.length) ∧
        (∀ pe ∈ placeExts exts off, FromItems items pe.1 pe.2 ∨
          (pe.2.disk_offset = 0 ∧ pe.2.disk_length = 0)) ∧
        (∀ koff rtype c en db dn eo nb,
          (koff, ExtItem.reg rtype c en db dn eo nb) ∈ items → rtype = 1 →
          (koff, (⟨c, en, db, dn, eo, nb⟩ : Extent)) ∈ placeExts exts off) := by
  intro items
  induction items with
  | nil =>
    intro off acc _ hle
    by_cases hlt : off < size
    · refine ⟨[⟨0, 0, 0, 0, 0, size - off⟩], ?_, ?_, ?_, ?_, ?_⟩
      · unfold openLoop
        rw [if_pos hlt]
      · simp [sumLengths]
      · intro e he
        simp at he
        subst he
        exact ⟨⟨rfl, fun h _ => absurd ⟨rfl, rfl⟩ h⟩, by simp; omega⟩
      · intro pe hpe
        obtain ⟨ps, px⟩ := pe
        simp [placeExts] at hpe
        right
        rw [hpe.2]
        exact ⟨rfl, rfl⟩
      · intro koff rtype c en db dn eo nb hmem
        simp at hmem
    · have hoff : off = size := by omega
      refine ⟨[], ?_, ?_, ?_, ?_, ?_⟩
      · unfold openLoop
        rw [if_neg hlt]
      · rw [hoff]
        simp [sumLengths]
      · intro e he
        simp at he
      · intro pe hpe
        simp [placeExts] at hpe
      · intro koff rtype c en db dn eo nb hmem
        simp at hmem
  | cons item rest ih =>
    intro off acc hwf hle
    obtain ⟨koff, it⟩ := item
    cases it with
    | inline c e d => exact absurd hwf (by simp [WfItemsFrom])
    | reg rtype c e db dn eo nb =>
      obtain ⟨henc, hcase⟩ := hwf
      rcases hcase with ⟨hr1, hok, hnb, hcov, hdec, hwrest⟩ | ⟨hr2, hwrest⟩
      · subst hr1
        by_cases hgap : off < koff
        · obtain ⟨exts', hloop, hsum', hok', hplace', hitems'⟩ :=
            ih (koff + nb) (acc ++ [⟨0, 0, 0, 0, 0, koff - off⟩] ++ [⟨c, e, db, dn, eo, nb⟩])
              hwrest (by omega)
          refine ⟨⟨0, 0, 0, 0, 0, koff - off⟩ :: ⟨c, e, db, dn, eo, nb⟩ :: exts', ?_, ?_, ?_, ?_, ?_⟩
          · unfold openLoop
            rw [if_pos rfl]
            simp only [if_pos hgap]
            rw [hloop]
            simp
          · simp [sumLengths] at hsum' ⊢
            omega
          · intro x hx
            rcases List.mem_cons.mp hx with h | h
            · subst h
              exact ⟨⟨rfl, fun h _ => absurd ⟨rfl, rfl⟩ h⟩, by simp; omega⟩
            rcases List.mem_cons.mp h with h | h
            · subst h
              refine ⟨⟨henc, fun hnsp hc => ?_⟩, by simp; omega⟩
              exact hdec hnsp hc
            · exact hok' x h
          · intro pe hpe
            unfold placeExts at hpe
            rcases List.mem_cons.mp hpe with h | h
            · rw [h]
              right
              exact ⟨rfl, rfl⟩
            rcases List.mem_cons.mp h with h | h
            · rw [h]
              left
              refine ⟨1, c, e, db, dn, eo, nb, ?_, rfl, rfl⟩
              simp only [List.mem_cons]
              left
              rw [(by omega : off + (koff - off) = koff)]
            · rcases hplace' pe (by
                rw [(by omega : off + (koff - off) + nb = koff + nb)] at h
                exact h) with hleft | hright
              · left
                obtain ⟨r', c', e', db', dn', eo', nb', hm, hr, hex⟩ := hleft
                exact ⟨r', c', e', db', dn', eo', nb', List.mem_cons_of_mem _ hm, hr, hex⟩
              · right
                exact hright
          · intro k r' c' e' db' dn' eo' nb' hmem hr1'
            rcases List.mem_cons.mp hmem with h | h
            · injection h with h1 h2
              injection h2 with a1 a2 a3 a4 a5 a6 a7
              subst h1
              subst a1
              subst a2
              subst a3
              subst a4
              subst a5
              subst a6
              subst a7
              unfold placeExts
              refine List.mem_cons_of_mem _ ?_
              unfold placeExts
              rw [(by omega : off + (k - off) = k)]
              exact List.mem_cons_self _ _
            · have hmem' := hitems' k r' c' e' db' dn' eo' nb' h hr1'
              unfold placeExts
              refine List.mem_cons_of_mem _ ?_
              unfold placeExts
              refine List.mem_cons_of_mem _ ?_
              rw [(by omega : off + (koff - off) + nb = koff + nb)]
              exact hmem'
        · have hoffk : off = koff := by omega
          subst hoffk
          obtain ⟨exts', hloop, hsum', hok', hplace', hitems'⟩ :=
            ih (off + nb) (acc ++ [⟨c, e, db, dn, eo, nb⟩]) hwrest (by omega)
          refine ⟨⟨c, e, db, dn, eo, nb⟩ :: exts', ?_, ?_, ?_, ?_, ?_⟩
          · unfold openLoop
            rw [if_pos rfl]
            simp only [if_neg hgap]
            rw [hloop]
            simp
          · simp [sumLengths] at hsum' ⊢
            omega
          · intro x hx
            rcases List.mem_cons.mp hx with h | h
            · subst h
              refine ⟨⟨henc, fun hnsp hc => ?_⟩, by simp; omega⟩
              exact hdec hnsp hc
            · exact hok' x h
          · intro pe hpe
            unfold placeExts at hpe
            rcases List.mem_cons.mp hpe with h | h
            · rw [h]
              left
              exact ⟨1, c, e, db, dn, eo, nb, List.mem_cons_self _ _, rfl, rfl⟩
            · rcases hplace' pe h with hleft | hright
              · left
                obtain ⟨r', c', e', db', dn', eo', nb', hm, hr, hex⟩ := hleft
                exact ⟨r', c', e', db', dn', eo', nb', List.mem_cons_of_mem _ hm, hr, hex⟩
              · right
                exact hright
          · intro k r' c' e' db' dn' eo' nb' hmem hr1'
            rcases List.mem_cons.mp hmem with h | h
            · injection h with h1 h2
              injection h2 with a1 a2 a3 a4 a5 a6 a7
              subst h1
              subst a1
              subst a2
              subst a3
              subst a4
              subst a5
              subst a6
              subst a7
              unfold placeExts
              exact List.mem_cons_self _ _
            · have hmem' := hitems' k r' c' e' db' dn' eo' nb' h hr1'
              unfold placeExts
              exact List.mem_cons_of_mem _ hmem'
      · subst hr2
        obtain ⟨exts', hloop, hsum', hok', hplace', hitems'⟩ := ih off acc hwrest hle
        refine ⟨exts', ?_, hsum', hok', ?_, ?_⟩
        · unfold openLoop
          rw [if_neg (by omega)]
          exact hloop
        · intro pe hpe
          rcases hplace' pe hpe with hleft | hright
          · left
            obtain ⟨r', c', e', db', dn', eo', nb', hm, hr, hex⟩ := hleft
            exact ⟨r', c', e', db', dn', eo', nb', List.mem_cons_of_mem _ hm, hr, hex⟩
          · right
            exact hright
        · intro k r' c' e' db' dn' eo' nb' hmem hr1'
          rcases List.mem_cons.mp hmem with h | h
          · injection h with h1 h2
            injection h2 with a1 a2 a3 a4 a5 a6 a7
            subst a1
            exact absurd hr1' (by omega)
          · exact hitems' k r' c' e' db' dn' eo' nb' h hr1'

theorem placeExts_mem_snd :
    ∀ (l : List Extent) (off : Nat) (pe : Nat × Extent), pe ∈ placeExts l off → pe.2 ∈ l := by
  intro l
  induction l with
  | nil => intro off pe h; simp [placeExts] at h
  | cons e rest ih =>
    intro off pe h
    unfold placeExts at h
    rcases List.mem_cons.mp h with h | h
    · rw [h]
      exact List.mem_cons_self _ _
    · exact List.mem_cons_of_mem _ (ih (off + e.length) pe h)

theorem c1_reg_path (dec : Nat → List Nat → List Nat) (disk : Nat → Nat) (size : Nat)
    (items : List (Nat × ExtItem)) (hwf : WfItemsFrom dec disk size 0 items) :
    ((openLoop dec size items 0 []).bind (openReadAll dec disk)).map List.length =
      some size := by
  obtain ⟨exts, hloop, hsum, hok, _, _⟩ :=
    openLoop_assembly dec disk size items 0 [] hwf (Nat.zero_le size)
  rw [List.nil_append] at hloop
  rw [hloop]
  show ((extentStreamRead dec disk exts size 0 size).map (fun l => l.take size)).map
    List.length = some size
  have hzero : extentStreamRead dec disk exts size 0 size =
      extentReadLoop dec disk size exts 0 0 size := by
    unfold extentStreamRead
    rw [bisectRight_extentOffsets_zero]
    simp
  rw [hzero]
  obtain ⟨l, hl, hlen⟩ := extentReadLoop_length dec disk size exts 0 size
    (fun e he => (hok e he).1) (by omega) (by omega)
  rw [hl]
  simp [List.length_take, hlen]

/-- C1: for a well-formed inode, reading the stream returned by `open()` to
exhaustion returns exactly `size` bytes — for inline-extent files,
regular/compressed/sparse extent files, and size-0 files alike. -/
theorem c1_open_read_size (dec : Nat → List Nat → List Nat) (disk : Nat → Nat)
    (size : Nat) (items : List (Nat × ExtItem)) (h : WfInode dec disk size items) :
    ((inodeOpen dec size items).bind (openReadAll dec disk)).map List.length =
      some size := by
  rcases h with hz | ⟨hpos, hm⟩
  · subst hz
    rfl
  · unfold inodeOpen
    rw [if_neg (by omega)]
    cases items with
    | nil => exact c1_reg_path dec disk size [] hm
    | cons it rest =>
      obtain ⟨koff, itt⟩ := it
      cases itt with
      | reg rtype c e db dn eo nb => exact c1_reg_path dec disk size _ hm
      | inline c e d =>
        obtain ⟨henc, hlen⟩ := hm
        unfold openLoop decodeExtentM
        rw [if_neg (by simp [henc])]
        simp only [Option.map_some']
        show (some ((if c = 0 then d.drop fileExtentInlineHeaderLen
          else dec c (d.drop fileExtentInlineHeaderLen)).take size)).map List.length =
          some size
        simp [List.length_take, hlen]

def c1dec : Nat → List Nat → List Nat := fun _ l => l

def c1disk : Nat → Nat := fun i => i % 256

def c1items : List (Nat × ExtItem) := [(0, .reg 1 0 0 5 2 0 2)]

theorem c1_open_read_size_witness :
    ((inodeOpen c1dec 2 c1items).bind (openReadAll c1dec c1disk)).map List.length =
      some 2 :=
  c1_open_read_size c1dec c1disk 2 c1items
    (Or.inr ⟨by omega,
      ⟨rfl, Or.inl ⟨rfl, by omega, by omega, by omega,
        fun _ hc => absurd rfl hc, trivial⟩⟩⟩)

/-- C6: the extent list assembled by `open()` for a REG/PREALLOC inode tiles
`[0, size)` exactly: the lengths sum to `size`, the implied file ranges are
pairwise non-overlapping, every entry is either a REG item's record placed at
its key offset or a synthesised sparse record with both disk offset and disk
length zero, and every REG item's record appears at its key offset. -/
theorem c6_extent_assembly (dec : Nat → List Nat → List Nat) (disk : Nat → Nat)
    (size : Nat) (items : List (Nat × ExtItem))
    (hwf : WfItemsFrom dec disk size 0 items) (hpos : 0 < size) :
    ∀ exts, inodeOpen dec size items = some (.extentStream exts size) →
      sumLengths exts = size
      ∧ List.Pairwise (fun a b : Nat × Extent => a.1 + a.2.length ≤ b.1) (placeExts exts 0)
      ∧ (∀ pe ∈ placeExts exts 0, FromItems items pe.1 pe.2 ∨
          (pe.2.disk_offset = 0 ∧ pe.2.disk_length = 0 ∧ 0 < pe.2.length))
      ∧ (∀ koff rtype c en db dn eo nb,
          (koff, ExtItem.reg rtype c en db dn eo nb) ∈ items → rtype = 1 →
          (koff, (⟨c, en, db, dn, eo, nb⟩ : Extent)) ∈ placeExts exts 0) := by
  intro exts heq
  obtain ⟨exts', hloop, hsum, hok, hplace, hitems⟩ :=
    openLoop_assembly dec disk size items 0 [] hwf (Nat.zero_le size)
  rw [List.nil_append] at hloop
  unfold inodeOpen at heq
  rw [if_neg (by omega), hloop] at heq
  simp only [Option.some_inj, OpenResult.extentStream.injEq] at heq
  obtain ⟨h1, _⟩ := heq
  subst h1
  refine ⟨by omega, placeExts_pairwise exts' 0, ?_, hitems⟩
  intro pe hpe
  rcases hplace pe hpe with hleft | hright
  · exact Or.inl hleft
  · right
    have hmem := placeExts_mem_snd exts' 0 pe hpe
    exact ⟨hright.1, hright.2, (hok pe.2 hmem).2⟩

def c6items : List (Nat × ExtItem) := [(2, .reg 1 0 0 5 2 0 2)]

def c6exts : List Extent := [⟨0, 0, 0, 0, 0, 2⟩, ⟨0, 0, 5, 2, 0, 2⟩, ⟨0, 0, 0, 0, 0, 4⟩]

theorem c6_extent_assembly_witness : sumLengths c6exts = 8 :=
  (c6_extent_assembly c1dec c1disk 8 c6items
    ⟨rfl, Or.inl ⟨rfl, by omega, by omega, by omega,
      fun _ hc => absurd rfl hc, trivial⟩⟩
    (by omega) c6exts rfl).1

/-- C7: for an inode whose first `EXTENT_DATA` item is INLINE, `open()`
decodes exactly the slice `data[header_len : header_len + size]` of the leaf
item's data, returns an in-memory buffer-backed stream which (when the decoded
payload has `size` bytes, as on a well-formed image) reads exactly `size`
bytes, and consumes no further extent items. -/
theorem c7_inline_extent (dec : Nat → List Nat → List Nat) (disk : Nat → Nat)
    (size koff c e : Nat) (d : List Nat) (rest : List (Nat × ExtItem))
    (hsz : 0 < size) (henc : e = 0)
    (hdlen : d.length ≤ fileExtentInlineHeaderLen + size) :
    d.drop fileExtentInlineHeaderLen =
      (d.take (fileExtentInlineHeaderLen + size)).drop fileExtentInlineHeaderLen
    ∧ inodeOpen dec size ((koff, .inline c e d) :: rest) =
        some (.buffered (if c = 0 then d.drop fileExtentInlineHeaderLen
          else dec c (d.drop fileExtentInlineHeaderLen)) size)
    ∧ ((if c = 0 then d.drop fileExtentInlineHeaderLen
          else dec c (d.drop fileExtentInlineHeaderLen)).length = size →
        ((inodeOpen dec size ((koff, .inline c e d) :: rest)).bind
          (openReadAll dec disk)).map List.length = some size)
    ∧ (∀ rest', inodeOpen dec size ((koff, .inline c e d) :: rest) =
        inodeOpen dec size ((koff, .inline c e d) :: rest')) := by
  have hopen : inodeOpen dec size ((koff, .inline c e d) :: rest) =
      some (.buffered (if c = 0 then d.drop fileExtentInlineHeaderLen
        else dec c (d.drop fileExtentInlineHeaderLen)) size) := by
    unfold inodeOpen
    rw [if_neg (by omega)]
    unfold openLoop decodeExtentM
    rw [if_neg (by simp [henc])]
    rfl
  refine ⟨?_, hopen, ?_, ?_⟩
  · rw [List.take_of_length_le hdlen]
  · intro hlen
    rw [hopen]
    show (some ((if c = 0 then d.drop fileExtentInlineHeaderLen
      else dec c (d.drop fileExtentInlineHeaderLen)).take size)).map List.length = some size
    simp [List.length_take, hlen]
  · intro rest'
    have hopen' : inodeOpen dec size ((koff, .inline c e d) :: rest') =
        some (.buffered (if c = 0 then d.drop fileExtentInlineHeaderLen
          else dec c (d.drop fileExtentInlineHeaderLen)) size) := by
      unfold inodeOpen
      rw [if_neg (by omega)]
      unfold openLoop decodeExtentM
      rw [if_neg (by simp [henc])]
      rfl
    rw [hopen, hopen']

def c7items : List (Nat × ExtItem) :=
  [(0, .inline 0 0 (List.replicate 21 0 ++ [7, 8])), (5, .reg 1 0 0 9 2 0 2)]

theorem c7_inline_extent_witness :
    ((inodeOpen c1dec 2 c7items).bind (openReadAll c1dec c1disk)).map List.length =
      some 2 :=
  (c7_inline_extent c1dec c1disk 2 0 0 0 (List.replicate 21 0 ++ [7, 8])
    [(5, .reg 1 0 0 9 2 0 2)] (by omega) rfl (by decide)).2.2.1 (by decide)

/-! ## B-tree cursor (tree.py) -/

/-- `btrfs_disk_key`. -/
structure BKey where
  objectid : Nat
  type : Nat
  offset : Nat
deriving Repr, DecidableEq

instance : Inhabited BKey := ⟨⟨0, 0, 0⟩⟩

/-- Strict lexicographic order on `(objectid, type, offset)`. -/
def keyLt (a b : BKey) : Prop :=
  a.objectid < b.objectid ∨
    (a.objectid = b.objectid ∧
      (a.type < b.type ∨ (a.type = b.type ∧ a.offset < b.offset)))

instance (a b : BKey) : Decidable (keyLt a b) := by
  unfold keyLt
  exact inferInstance

theorem keyLt_trans {a b c : BKey} (h1 : keyLt a b) (h2 : keyLt b c) : keyLt a c := by
  unfold keyLt at *
  omega

/-- `_cmp_key`, offset comparison. -/
def cmpKeyOffsetPart (key : BKey) (offset : Option Nat) : Int :=
  match offset with
  | some o => if key.offset > o then 1 else if key.offset < o then -1 else 0
  | none => 0

/-- `_cmp_key`, type and offset comparison. -/
def cmpKeyTypePart (key : BKey) (type offset : Option Nat) : Int :=
  match type with
  | some t => if key.type > t then 1 else if key.type < t then -1 else cmpKeyOffsetPart key offset
  | none => cmpKeyOffsetPart key offset

/-- `_cmp_key`: compare an on-disk key against a query whose `None` fields are
ignored. -/
def cmpKey (key : BKey) (objectid type offset : Option Nat) : Int :=
  match objectid with
  | some o =>
      if key.objectid > o then 1
      else if key.objectid < o then -1
      else cmpKeyTypePart key type offset
  | none => cmpKeyTypePart key type offset

/-- A B-tree node: a leaf holds `(key, item-data)` pairs, a branch holds
`(key, child)` pairs (the `blockptr` of a `btrfs_key_ptr` dereferenced through
`_read_node`). -/
inductive BNode where
  | leaf (items : List (BKey × Nat))
  | branch (ptrs : List (BKey × BNode))

instance : Inhabited BNode := ⟨.leaf []⟩

/-- `header.nritems`. -/
def BNode.nritems : BNode → Nat
  | .leaf items => items.length
  | .branch ptrs => ptrs.length

/-- `_read_key`. -/
def BNode.keyAt : BNode → Nat → BKey
  | .leaf items, i => (items.getD i default).1
  | .branch ptrs, i => (ptrs.getD i default).1

/-- The node's own key sequence. -/
def nodeKeys : BNode → List BKey
  | .leaf items => items.map Prod.fst
  | .branch ptrs => ptrs.map Prod.fst

/-- Child dereference (`push(self._read_item(i).blockptr)`). -/
def childAt (ptrs : List (BKey × BNode)) (i : Nat) : BNode := (ptrs.getD i default).2

mutual
/-- All leaf keys of a subtree, in tree order. -/
def subKeys : BNode → List BKey
  | .leaf items => items.map Prod.fst
  | .branch ptrs => subKeysList ptrs
def subKeysList : List (BKey × BNode) → List BKey
  | [] => []
  | p :: rest => subKeys p.2 ++ subKeysList rest
end

mutual
/-- Total number of nodes of a subtree. -/
def nodeCount : BNode → Nat
  | .leaf _ => 1
  | .branch ptrs => 1 + nodeCountList ptrs
def nodeCountList : List (BKey × BNode) → Nat
  | [] => 0
  | p :: rest => nodeCount p.2 + nodeCountList rest
end

/-- Well-formed node: nonempty, children well-formed, and each branch pointer
key equal to the first key of its child's subtree. -/
inductive WfNode : BNode → Prop where
  | leaf : ∀ items, items ≠ [] → WfNode (.leaf items)
  | branch : ∀ ptrs, ptrs ≠ [] →
      (∀ p ∈ ptrs, WfNode p.2) →
      (∀ p ∈ ptrs, (subKeys p.2).head? = some p.1) →
      WfNode (.branch ptrs)

/-- The binary-search loop of `Cursor.search`, fuelled (`fuel ≥ maxI - minI`
reproduces the Python loop; inside the loop an unspecified offset is searched
as `offset or 0`). -/
def binSearchGo (n : BNode) (objectid type : Option Nat) (off0 : Nat) :
    Nat → Nat → Nat → Nat
  | 0, minI, _ => minI
  | fuel + 1, minI, maxI =>
    if minI < maxI then
      let testI := (minI + maxI) / 2
      if cmpKey (n.keyAt testI) objectid type (some off0) < 0 then
        binSearchGo n objectid type off0 fuel (testI + 1) maxI
      else
        binSearchGo n objectid type off0 fuel minI testI
    else minI

def binSearch (n : BNode) (objectid type : Option Nat) (off0 minI maxI : Nat) : Nat :=
  binSearchGo n objectid type off0 (maxI - minI) minI maxI

/-- One suspended frame of the cursor's path stack. -/
structure SFrame where
  node : BNode
  index : Nat

/-- Cursor state: current node, current index, parent frames innermost
first. -/
structure CState where
  cur : BNode
  index : Nat
  path : List SFrame

/-- The pop loop of `next_node`: pop while the current node is exhausted;
`none` models the `ValueError` when the sentinel (empty path) is reached. -/
def popWhileExhausted (n : BNode) (i : Nat) :
    List SFrame → Option (BNode × Nat × List SFrame)
  | [] => if i + 1 ≥ n.nritems then none else some (n, i, [])
  | f :: rest =>
      if i + 1 ≥ n.nritems then popWhileExhausted f.node f.index rest
      else some (n, i, f :: rest)

/-- `Cursor.next_node`. -/
def nextNode (s : CState) : Option CState :=
  match popWhileExhausted s.cur s.index s.path with
  | none => none
  | some (n, i, p) =>
    match n with
    | .leaf items => some ⟨.leaf items, i + 1, p⟩
    | .branch ptrs => some ⟨childAt ptrs (i + 1), 0, ⟨.branch ptrs, i + 1⟩ :: p⟩

/-- The branch-level decision of `Cursor.search`: descend via `min_idx - 1`
exactly when the found key is strictly greater than the query and
`min_idx > 0`. -/
def searchDescendIdx (n : BNode) (oid t off : Option Nat) (bs : Nat) : Nat :=
  if 0 < cmpKey (n.keyAt bs) oid t off ∧ 0 < bs then bs - 1 else bs

/-- The loop of `Cursor.search`, fuelled.  `none` = fuel exhausted (the claim
theorem shows `nodeCount root + 1` always suffices on a well-formed tree),
`some none` = search returned `False`, `some (some s)` = search returned
`True` positioned at `s`. -/
def searchGo (oid t off : Option Nat) : Nat → CState → Option (Option CState)
  | 0, _ => none
  | fuel + 1, s =>
    let bs := binSearch s.cur oid t (off.getD 0) 0 (s.cur.nritems - 1)
    let result := cmpKey (s.cur.keyAt bs) oid t off
    match s.cur with
    | .branch ptrs =>
      let j := searchDescendIdx s.cur oid t off bs
      searchGo oid t off fuel ⟨childAt ptrs j, 0, ⟨.branch ptrs, j⟩ :: s.path⟩
    | .leaf items =>
      if 0 ≤ result then some (some ⟨.leaf items, bs, s.path⟩)
      else if bs = items.length - 1 then
        match nextNode ⟨.leaf items, bs, s.path⟩ with
        | none => some none
        | some s' => searchGo oid t off fuel s'
      else some none

/-- `Cursor.search` started from a fresh cursor on the tree root. -/
def cursorSearch (fuel : Nat) (root : BNode) (oid t off : Option Nat) :
    Option (Option CState) :=
  searchGo oid t off fuel ⟨root, 0, []⟩

def currentKey (s : CState) : BKey := s.cur.keyAt s.index

/-- The `while self._header.level: push(...)` descent of `Cursor.next`. -/
def descendFirst : Nat → CState → Option CState
  | 0, s =>
    match s.cur with
    | .leaf _ => some s
    | .branch _ => none
  | fuel + 1, s =>
    match s.cur with
    | .leaf _ => some s
    | .branch ptrs =>
        descendFirst fuel ⟨childAt ptrs s.index, 0, ⟨.branch ptrs, s.index⟩ :: s.path⟩

/-- `Cursor.next`. -/
def cursorNext (fuel : Nat) (s : CState) : Option CState :=
  match nextNode s with
  | none => none
  | some s' => descendFirst fuel s'

/-- The yield loop of `Cursor.iter` after a successful `search`, fuelled;
yields current keys while the key matches, stopping silently when `next`
raises. -/
def iterGo (oid t off : Option Nat) : Nat → CState → Option (List BKey)
  | 0, _ => none
  | fuel + 1, s =>
    if cmpKey (currentKey s) oid t off = 0 then
      match cursorNext (fuel + 1) s with
      | none => some [currentKey s]
      | some s' => (iterGo oid t off fuel s').map (fun l => currentKey s :: l)
    else some []

/-- `Cursor.iter`: seed with `search`; an unsuccessful search yields nothing.
The `offset` is dropped from the continuation comparison when
`ignore_offset`. -/
def cursorIter (fuel : Nat) (root : BNode) (oid t off : Option Nat)
    (ignoreOffset : Bool) : Option (List BKey) :=
  match cursorSearch fuel root oid t off with
  | none => none
  | some none => some []
  | some (some s) => iterGo oid t (if ignoreOffset then none else off) fuel s

/-- C10: whenever `Cursor.search` returns `False`, `Cursor.iter` yields no
items and raises no error — the iterator is simply empty. -/
theorem c10_iter_empty_on_failed_search (fuel : Nat) (root : BNode)
    (oid t off : Option Nat) (ig : Bool)
    (h : cursorSearch fuel root oid t off = some none) :
    cursorIter fuel root oid t off ig = some [] := by
  unfold cursorIter
  rw [h]

/-- A query prefix `(objectid?, type?, offset?)`: trailing fields may be
unspecified. -/
def PrefixQuery (oid t off : Option Nat) : Prop :=
  (t.isSome → oid.isSome) ∧ (off.isSome → t.isSome)

theorem cmp0_lt_iff (oid t off : Option Nat) (k : BKey) :
    cmpKey k oid t (some (off.getD 0)) < 0 ↔ cmpKey k oid t off < 0 := by
  rcases off with _ | x
  · rcases oid with _ | o <;> rcases t with _ | tt <;>
      (simp only [cmpKey, cmpKeyTypePart, cmpKeyOffsetPart, Option.getD]
       split_ifs <;> omega)
  · exact Iff.rfl

set_option maxHeartbeats 1000000 in
theorem cmp0_nonneg_of_eq (oid t off : Option Nat) (k : BKey)
    (h : cmpKey k oid t off = 0) : 0 ≤ cmpKey k oid t (some (off.getD 0)) := by
  rcases off with _ | x <;> rcases oid with _ | o <;> rcases t with _ | tt <;>
    (simp only [cmpKey, cmpKeyTypePart, cmpKeyOffsetPart, Option.getD] at h ⊢
     first
     | (split_ifs at h ⊢ <;> omega)
     | (split_ifs <;> omega)
     | omega)

set_option maxHeartbeats 2000000 in
theorem cmp0_lt_mono (oid t off : Option Nat) (hq : PrefixQuery oid t off)
    {a b : BKey} (hab : keyLt a b)
    (hb : cmpKey b oid t (some (off.getD 0)) < 0) :
    cmpKey a oid t (some (off.getD 0)) < 0 := by
  obtain ⟨hq1, hq2⟩ := hq
  unfold keyLt at hab
  rcases oid with _ | o <;> rcases t with _ | tt <;> rcases off with _ | x
  · simp only [cmpKey, cmpKeyTypePart, cmpKeyOffsetPart, Option.getD] at hb ⊢
    omega
  · exact absurd (hq2 (by simp)) (by simp)
  · exact absurd (hq1 (by simp)) (by simp)
  · exact absurd (hq1 (by simp)) (by simp)
  · simp only [cmpKey, cmpKeyTypePart, cmpKeyOffsetPart, Option.getD] at hb ⊢
    rcases hab with h | ⟨h1, h | ⟨h2, h3⟩⟩ <;> (split_ifs at hb ⊢ <;> omega)
  · exact absurd (hq2 (by simp)) (by simp)
  · simp only [cmpKey, cmpKeyTypePart, cmpKeyOffsetPart, Option.getD] at hb ⊢
    rcases hab with h | ⟨h1, h | ⟨h2, h3⟩⟩ <;> (split_ifs at hb ⊢ <;> omega)
  · simp only [cmpKey, cmpKeyTypePart, cmpKeyOffsetPart, Option.getD] at hb ⊢
    rcases hab with h | ⟨h1, h | ⟨h2, h3⟩⟩ <;> (split_ifs at hb ⊢ <;> omega)

theorem cmpN_lt_mono (oid t off : Option Nat) (hq : PrefixQuery oid t off)
    {a b : BKey} (hab : keyLt a b) (hb : cmpKey b oid t off < 0) :
    cmpKey a oid t off < 0 :=
  (cmp0_lt_iff oid t off a).mp
    (cmp0_lt_mono oid t off hq hab ((cmp0_lt_iff oid t off b).mpr hb))

set_option maxHeartbeats 1000000 in
theorem cmpFull_lt_iff (o tt z : Nat) (k : BKey) :
    cmpKey k (some o) (some tt) (some z) < 0 ↔ keyLt k ⟨o, tt, z⟩ := by
  simp only [cmpKey, cmpKeyTypePart, cmpKeyOffsetPart, keyLt]
  split_ifs <;> omega

set_option maxHeartbeats 1000000 in
theorem cmpFull_lt_of_le (o tt z : Nat) {a b : BKey} (hab : keyLt a b)
    (hb : cmpKey b (some o) (some tt) (some z) ≤ 0) :
    cmpKey a (some o) (some tt) (some z) < 0 := by
  unfold keyLt at hab
  simp only [cmpKey, cmpKeyTypePart, cmpKeyOffsetPart] at hb ⊢
  rcases hab with h | ⟨h1, h | ⟨h2, h3⟩⟩ <;> (split_ifs at hb ⊢ <;> omega)

theorem getD_map_fst : ∀ (l : List (BKey × Nat)) (i : Nat),
    (l.map Prod.fst).getD i default = (l.getD i default).1 := by
  intro l
  induction l with
  | nil => intro i; rfl
  | cons p rest ih =>
    intro i
    cases i with
    | zero => rfl
    | succ i => exact ih i

theorem getD_map_fst_ptr : ∀ (l : List (BKey × BNode)) (i : Nat),
    (l.map Prod.fst).getD i default = (l.getD i default).1 := by
  intro l
  induction l with
  | nil => intro i; rfl
  | cons p rest ih =>
    intro i
    cases i with
    | zero => rfl
    | succ i => exact ih i

theorem keyAt_eq_nodeKeys_getD (n : BNode) (i : Nat) :
    n.keyAt i = (nodeKeys n).getD i default := by
  cases n with
  | leaf items => exact (getD_map_fst items i).symm
  | branch ptrs => exact (getD_map_fst_ptr ptrs i).symm

theorem nodeKeys_length (n : BNode) : (nodeKeys n).length = n.nritems := by
  cases n <;> simp [nodeKeys, BNode.nritems]

theorem nodeKeys_pairwise_mono (n : BNode) (oid t off : Option Nat)
    (hq : PrefixQuery oid t off) (hp : List.Pairwise keyLt (nodeKeys n)) :
    ∀ i j, i ≤ j → j < n.nritems →
      cmpKey (n.keyAt j) oid t (some (off.getD 0)) < 0 →
      cmpKey (n.keyAt i) oid t (some (off.getD 0)) < 0 := by
  intro i j hij hj hcmp
  rcases Nat.eq_or_lt_of_le hij with he | hl
  · rw [he]; exact hcmp
  · have hjlen : j < (nodeKeys n).length := by rw [nodeKeys_length]; exact hj
    have hilen : i < (nodeKeys n).length := by omega
    have hks : keyLt (n.keyAt i) (n.keyAt j) := by
      rw [keyAt_eq_nodeKeys_getD, keyAt_eq_nodeKeys_getD,
        List.getD_eq_getElem _ _ hilen, List.getD_eq_getElem _ _ hjlen]
      exact List.pairwise_iff_get.mp hp ⟨i, hilen⟩ ⟨j, hjlen⟩ hl
    exact cmp0_lt_mono oid t off hq hks hcmp

theorem binSearchGo_spec (n : BNode) (oid t : Option Nat) (off0 : Nat)
    (hmono : ∀ i j : Nat, i ≤ j → j < n.nritems →
      cmpKey (n.keyAt j) oid t (some off0) < 0 →
      cmpKey (n.keyAt i) oid t (some off0) < 0) :
    ∀ (fuel minI maxI : Nat), minI ≤ maxI → maxI - minI ≤ fuel → maxI < n.nritems →
      minI ≤ binSearchGo n oid t off0 fuel minI maxI
      ∧ binSearchGo n oid t off0 fuel minI maxI ≤ maxI
      ∧ (∀ i, minI ≤ i → i < binSearchGo n oid t off0 fuel minI maxI →
          cmpKey (n.keyAt i) oid t (some off0) < 0)
      ∧ (0 ≤ cmpKey (n.keyAt (binSearchGo n oid t off0 fuel minI maxI)) oid t (some off0)
          ∨ binSearchGo n oid t off0 fuel minI maxI = maxI) := by
  intro fuel
  induction fuel with
  | zero =>
    intro minI maxI h1 h2 _
    have he : minI = maxI := by omega
    have hr : binSearchGo n oid t off0 0 minI maxI = minI := rfl
    rw [hr]
    exact ⟨Nat.le_refl _, by omega, fun i hi1 hi2 => absurd hi2 (by omega), Or.inr he⟩
  | succ fuel ih =>
    intro minI maxI h1 h2 h3
    unfold binSearchGo
    by_cases hlt : minI < maxI
    · rw [if_pos hlt]
      simp only []
      by_cases hc : cmpKey (n.keyAt ((minI + maxI) / 2)) oid t (some off0) < 0
      · rw [if_pos hc]
        obtain ⟨ih1, ih2, ih3, ih4⟩ := ih ((minI + maxI) / 2 + 1) maxI (by omega) (by omega) h3
        refine ⟨by omega, ih2, ?_, ih4⟩
        intro i hi1 hi2
        by_cases hile : i ≤ (minI + maxI) / 2
        · exact hmono i ((minI + maxI) / 2) hile (by omega) hc
        · exact ih3 i (by omega) hi2
      · rw [if_neg hc]
        obtain ⟨ih1, ih2, ih3, ih4⟩ := ih minI ((minI + maxI) / 2) (by omega) (by omega) (by omega)
        refine ⟨ih1, by omega, ih3, ?_⟩
        rcases ih4 with h | h
        · exact Or.inl h
        · left
          rw [h]
          omega
    · rw [if_neg hlt]
      have he : minI = maxI := by omega
      exact ⟨Nat.le_refl _, by omega, fun i hi1 hi2 => absurd hi2 (by omega), Or.inr he⟩

/-- The binary search of `Cursor.search` over a sorted nonempty node finds the
least index whose key is `≥` the (offset-defaulted) query, or the last index
when every key is smaller. -/
theorem binSearch_spec (n : BNode) (oid t off : Option Nat) (hq : PrefixQuery oid t off)
    (hp : List.Pairwise keyLt (nodeKeys n)) (hn : 0 < n.nritems) :
    binSearch n oid t (off.getD 0) 0 (n.nritems - 1) < n.nritems
    ∧ (∀ i, i < binSearch n oid t (off.getD 0) 0 (n.nritems - 1) →
        cmpKey (n.keyAt i) oid t (some (off.getD 0)) < 0)
    ∧ (0 ≤ cmpKey (n.keyAt (binSearch n oid t (off.getD 0) 0 (n.nritems - 1))) oid t
          (some (off.getD 0))
        ∨ binSearch n oid t (off.getD 0) 0 (n.nritems - 1) = n.nritems - 1) := by
  obtain ⟨h1, h2, h3, h4⟩ := binSearchGo_spec n oid t (off.getD 0)
    (nodeKeys_pairwise_mono n oid t off hq hp)
    (n.nritems - 1 - 0) 0 (n.nritems - 1) (by omega) (by omega) (by omega)
  exact ⟨by unfold binSearch; omega, fun i hi => h3 i (by omega) hi, h4⟩

/-- The subtree keys still ahead of a suspended frame (children after the
frame's index). -/
def frameKeys (f : SFrame) : List BKey :=
  match f.node with
  | .leaf _ => []
  | .branch ptrs => subKeysList (ptrs.drop (f.index + 1))

def pathKeys (path : List SFrame) : List BKey := path.flatMap frameKeys

/-- All leaf keys from the cursor position's subtree onward. -/
def stateKeys (s : CState) : List BKey := subKeys s.cur ++ pathKeys s.path

def frameCount (f : SFrame) : Nat :=
  match f.node with
  | .leaf _ => 0
  | .branch ptrs => nodeCountList (ptrs.drop (f.index + 1))

def pathCount (path : List SFrame) : Nat := (path.map frameCount).sum

/-- Number of tree nodes still reachable from a cursor state: the search-loop
measure. -/
def stateCount (s : CState) : Nat := nodeCount s.cur + pathCount s.path

def WfFrame (f : SFrame) : Prop :=
  WfNode f.node ∧ (∃ ptrs, f.node = .branch ptrs) ∧ f.index < f.node.nritems

def WfState (s : CState) : Prop := WfNode s.cur ∧ ∀ f ∈ s.path, WfFrame f

theorem subKeysList_append :
    ∀ (l₁ l₂ : List (BKey × BNode)),
      subKeysList (l₁ ++ l₂) = subKeysList l₁ ++ subKeysList l₂ := by
  intro l₁
  induction l₁ with
  | nil => intro l₂; rfl
  | cons p rest ih =>
    intro l₂
    show subKeys p.2 ++ subKeysList (rest ++ l₂) = (subKeys p.2 ++ subKeysList rest) ++ subKeysList l₂
    rw [ih, List.append_assoc]

theorem nodeCountList_append :
    ∀ (l₁ l₂ : List (BKey × BNode)),
      nodeCountList (l₁ ++ l₂) = nodeCountList l₁ + nodeCountList l₂ := by
  intro l₁
  induction l₁ with
  | nil =>
    intro l₂
    show nodeCountList l₂ = nodeCountList [] + nodeCountList l₂
    show nodeCountList l₂ = 0 + nodeCountList l₂
    omega
  | cons p rest ih =>
    intro l₂
    show nodeCount p.2 + nodeCountList (rest ++ l₂) = nodeCount p.2 + nodeCountList rest + nodeCountList l₂
    rw [ih]
    omega

theorem nodeCount_pos (n : BNode) : 0 < nodeCount n := by
  cases n with
  | leaf items => exact Nat.one_pos
  | branch ptrs =>
    show 0 < 1 + nodeCountList ptrs
    omega

theorem subKeys_ne_nil {n : BNode} (h : WfNode n) : subKeys n ≠ [] := by
  induction h with
  | leaf items hne =>
    show items.map Prod.fst ≠ []
    simp [hne]
  | branch ptrs hne hwf hheads ih =>
    cases ptrs with
    | nil => exact absurd rfl hne
    | cons p rest =>
      show subKeys p.2 ++ subKeysList rest ≠ []
      have := ih p (List.mem_cons_self p rest)
      simp [this]

theorem head?_eq_cons {l : List BKey} {a : BKey} (h : l.head? = some a) :
    ∃ tl, l = a :: tl := by
  cases l with
  | nil => cases h
  | cons x tl =>
    refine ⟨tl, ?_⟩
    simp only [List.head?] at h
    injection h with h
    rw [h]

theorem drop_getD_cons {α : Type} [Inhabited α] :
    ∀ (l : List α) (i : Nat), i < l.length → l.drop i = l.getD i default :: l.drop (i + 1) := by
  intro l
  induction l with
  | nil => intro i h; simp at h
  | cons x rest ih =>
    intro i h
    cases i with
    | zero => rfl
    | succ i =>
      show rest.drop i = rest.getD i default :: rest.drop (i + 1)
      exact ih i (by simpa using h)

theorem subKeysList_take_drop (ptrs : List (BKey × BNode)) (j : Nat) (hj : j < ptrs.length) :
    subKeysList ptrs =
      subKeysList (ptrs.take j) ++ subKeys ((ptrs.getD j default).2)
        ++ subKeysList (ptrs.drop (j + 1)) := by
  conv_lhs => rw [← List.take_append_drop j ptrs]
  rw [subKeysList_append, drop_getD_cons ptrs j hj]
  show _ ++ (subKeys _ ++ subKeysList _) = _
  rw [List.append_assoc]

theorem nodeCountList_take_drop (ptrs : List (BKey × BNode)) (j : Nat) (hj : j < ptrs.length) :
    nodeCountList ptrs =
      nodeCountList (ptrs.take j) + nodeCount ((ptrs.getD j default).2)
        + nodeCountList (ptrs.drop (j + 1)) := by
  conv_lhs => rw [← List.take_append_drop j ptrs]
  rw [nodeCountList_append, drop_getD_cons ptrs j hj]
  show _ + (nodeCount _ + nodeCountList _) = _
  omega

theorem wfNode_branch_child {ptrs : List (BKey × BNode)} (h : WfNode (.branch ptrs))
    {p : BKey × BNode} (hp : p ∈ ptrs) : WfNode p.2 := by
  cases h with
  | branch _ hne hwf hheads => exact hwf p hp

theorem wfNode_branch_head {ptrs : List (BKey × BNode)} (h : WfNode (.branch ptrs))
    {p : BKey × BNode} (hp : p ∈ ptrs) : (subKeys p.2).head? = some p.1 := by
  cases h with
  | branch _ hne hwf hheads => exact hheads p hp

theorem wfNode_nritems_pos {n : BNode} (h : WfNode n) : 0 < n.nritems := by
  cases h with
  | leaf items hne =>
    show 0 < items.length
    cases items with
    | nil => exact absurd rfl hne
    | cons _ _ => simp
  | branch ptrs hne _ _ =>
    show 0 < ptrs.length
    cases ptrs with
    | nil => exact absurd rfl hne
    | cons _ _ => simp

theorem getD_mem {α : Type} [Inhabited α] (l : List α) (i : Nat) (h : i < l.length) :
    l.getD i default ∈ l := by
  rw [List.getD_eq_getElem _ _ h]
  exact List.getElem_mem h

theorem pathKeys_cons (f : SFrame) (rest : List SFrame) :
    pathKeys (f :: rest) = frameKeys f ++ pathKeys rest := by
  simp [pathKeys]

theorem pathCount_cons (f : SFrame) (rest : List SFrame) :
    pathCount (f :: rest) = frameCount f + pathCount rest := by
  simp [pathCount]

theorem popWhile_not_exhausted (n : BNode) (i : Nat) (path : List SFrame)
    (h : ¬(i + 1 ≥ n.nritems)) : popWhileExhausted n i path = some (n, i, path) := by
  cases path with
  | nil =>
    show (if i + 1 ≥ n.nritems then none else some (n, i, ([] : List SFrame))) = _
    rw [if_neg h]
  | cons f rest =>
    show (if i + 1 ≥ n.nritems then popWhileExhausted f.node f.index rest
          else some (n, i, f :: rest)) = _
    rw [if_neg h]

/-- Full characterisation of the pop loop of `next_node` on an exhausted
node: popping either empties the stack (all remaining keys were exhausted)
or stops at a well-formed branch frame holding exactly the remaining keys. -/
theorem popWhile_spec :
    ∀ (path : List SFrame) (n : BNode) (i : Nat),
      (∀ f ∈ path, WfFrame f) → i + 1 ≥ n.nritems →
      (popWhileExhausted n i path = none → pathKeys path = [] ∧ pathCount path = 0)
      ∧ (∀ n' i' p', popWhileExhausted n i path = some (n', i', p') →
          WfNode n' ∧ (∃ ptrs', n' = .branch ptrs') ∧ i' + 1 < n'.nritems
          ∧ (∀ f ∈ p', WfFrame f)
          ∧ frameKeys ⟨n', i'⟩ ++ pathKeys p' = pathKeys path
          ∧ frameCount ⟨n', i'⟩ + pathCount p' ≤ pathCount path) := by
  intro path
  induction path with
  | nil =>
    intro n i hwfp hexh
    constructor
    · intro _
      exact ⟨rfl, rfl⟩
    · intro n' i' p' heq
      rw [show popWhileExhausted n i [] =
            if i + 1 ≥ n.nritems then none else some (n, i, ([] : List SFrame)) from rfl,
          if_pos hexh] at heq
      cases heq
  | cons f rest ih =>
    intro n i hwfp hexh
    have hrec : popWhileExhausted n i (f :: rest) = popWhileExhausted f.node f.index rest := by
      show (if i + 1 ≥ n.nritems then popWhileExhausted f.node f.index rest
            else some (n, i, f :: rest)) = _
      rw [if_pos hexh]
    have hwf : WfFrame f := hwfp f (List.mem_cons_self f rest)
    have hwfr : ∀ g ∈ rest, WfFrame g := fun g hg => hwfp g (List.mem_cons_of_mem f hg)
    obtain ⟨hwfn, ⟨ptrs, hbr⟩, hidx⟩ := hwf
    by_cases hf : f.index + 1 ≥ f.node.nritems
    · have IH := ih f.node f.index hwfr hf
      have hlen : ptrs.length ≤ f.index + 1 := by rw [hbr] at hf; exact hf
      have hfk : frameKeys f = [] := by
        simp only [frameKeys, hbr, List.drop_eq_nil_of_le hlen]
        rfl
      have hfc : frameCount f = 0 := by
        simp only [frameCount, hbr, List.drop_eq_nil_of_le hlen]
        rfl
      constructor
      · intro hnone
        rw [hrec] at hnone
        obtain ⟨hk, hc⟩ := IH.1 hnone
        rw [pathKeys_cons, pathCount_cons, hfk, hfc, hk, hc]
        exact ⟨rfl, rfl⟩
      · intro n' i' p' heq
        rw [hrec] at heq
        obtain ⟨h1, h2, h3, h4, h5, h6⟩ := IH.2 n' i' p' heq
        refine ⟨h1, h2, h3, h4, ?_, ?_⟩
        · rw [pathKeys_cons, hfk, List.nil_append, ← h5]
        · rw [pathCount_cons, hfc]
          omega
    · constructor
      · intro hnone
        rw [hrec, popWhile_not_exhausted f.node f.index rest hf] at hnone
        cases hnone
      · intro n' i' p' heq
        rw [hrec, popWhile_not_exhausted f.node f.index rest hf] at heq
        simp only [Option.some.injEq, Prod.mk.injEq] at heq
        obtain ⟨h1, h2, h3⟩ := heq
        subst h1
        subst h2
        subst h3
        refine ⟨hwfn, ⟨ptrs, hbr⟩, by omega, hwfr, ?_, ?_⟩
        · rw [pathKeys_cons]
        · rw [pathCount_cons]

/-- `next_node` either raises (stack fully exhausted: no keys remain) or
moves to the first leaf-ward position of the next pending subtree, with the
remaining keys and node count preserved and decreased respectively. -/
theorem nextNode_spec (s : CState) (hwfp : ∀ f ∈ s.path, WfFrame f)
    (hexh : s.index + 1 ≥ s.cur.nritems) :
    (nextNode s = none → pathKeys s.path = [] ∧ pathCount s.path = 0)
    ∧ (∀ s', nextNode s = some s' →
        WfNode s'.cur ∧ (∀ f ∈ s'.path, WfFrame f) ∧ s'.index = 0
        ∧ stateKeys s' = pathKeys s.path
        ∧ stateCount s' ≤ pathCount s.path) := by
  have PW := popWhile_spec s.path s.cur s.index hwfp hexh
  constructor
  · intro hnone
    cases hpw : popWhileExhausted s.cur s.index s.path with
    | none => exact PW.1 hpw
    | some t =>
      obtain ⟨n', i', p'⟩ := t
      obtain ⟨hwfn, ⟨ptrs', hbr⟩, hlt, hwf', hkeys, hcnt⟩ := PW.2 n' i' p' hpw
      subst hbr
      have hnn : nextNode s = some ⟨childAt ptrs' (i' + 1), 0, ⟨.branch ptrs', i' + 1⟩ :: p'⟩ := by
        unfold nextNode
        rw [hpw]
      rw [hnn] at hnone
      cases hnone
  · intro s' heq
    cases hpw : popWhileExhausted s.cur s.index s.path with
    | none =>
      have hnn : nextNode s = none := by
        unfold nextNode
        rw [hpw]
      rw [hnn] at heq
      cases heq
    | some t =>
      obtain ⟨n', i', p'⟩ := t
      obtain ⟨hwfn, ⟨ptrs', hbr⟩, hlt, hwf', hkeys, hcnt⟩ := PW.2 n' i' p' hpw
      subst hbr
      have hnn : nextNode s = some ⟨childAt ptrs' (i' + 1), 0, ⟨.branch ptrs', i' + 1⟩ :: p'⟩ := by
        unfold nextNode
        rw [hpw]
      rw [hnn] at heq
      injection heq with heq
      subst heq
      refine ⟨?_, ?_, rfl, ?_, ?_⟩
      · exact wfNode_branch_child hwfn (getD_mem ptrs' (i' + 1) hlt)
      · intro g hg
        rcases List.mem_cons.mp hg with rfl | hg
        · exact ⟨hwfn, ⟨ptrs', rfl⟩, hlt⟩
        · exact hwf' g hg
      · show subKeys (childAt ptrs' (i' + 1)) ++ pathKeys (⟨.branch ptrs', i' + 1⟩ :: p')
            = pathKeys s.path
        rw [pathKeys_cons, ← hkeys, ← List.append_assoc]
        congr 1
        have hfk1 : frameKeys (⟨.branch ptrs', i' + 1⟩ : SFrame)
            = subKeysList (ptrs'.drop (i' + 2)) := by
          simp only [frameKeys]
        have hfk0 : frameKeys (⟨.branch ptrs', i'⟩ : SFrame)
            = subKeysList (ptrs'.drop (i' + 1)) := by
          simp only [frameKeys]
        rw [hfk1, hfk0, drop_getD_cons ptrs' (i' + 1) hlt]
        rfl
      · show nodeCount (childAt ptrs' (i' + 1)) + pathCount (⟨.branch ptrs', i' + 1⟩ :: p')
            ≤ pathCount s.path
        rw [pathCount_cons]
        have hfc1 : frameCount (⟨.branch ptrs', i' + 1⟩ : SFrame)
            = nodeCountList (ptrs'.drop (i' + 2)) := by
          simp only [frameCount]
        have hfc0 : frameCount (⟨.branch ptrs', i'⟩ : SFrame)
            = nodeCountList (ptrs'.drop (i' + 1)) := by
          simp only [frameCount]
        have hsplit : nodeCountList (ptrs'.drop (i' + 1))
            = nodeCount (childAt ptrs' (i' + 1)) + nodeCountList (ptrs'.drop (i' + 2)) := by
          rw [drop_getD_cons ptrs' (i' + 1) hlt]
          rfl
        rw [hfc1]
        rw [hfc0, hsplit] at hcnt
        omega

theorem mem_subKeysList_take_intro {k : BKey} :
    ∀ (ptrs : List (BKey × BNode)) (c j : Nat), c < j → c < ptrs.length →
      k ∈ subKeys ((ptrs.getD c default).2) → k ∈ subKeysList (ptrs.take j) := by
  intro ptrs
  induction ptrs with
  | nil => intro c j _ hc; simp at hc
  | cons p rest ih =>
    intro c j hcj hc hk
    cases j with
    | zero => omega
    | succ j =>
      show k ∈ subKeys p.2 ++ subKeysList (rest.take j)
      cases c with
      | zero => exact List.mem_append_left _ hk
      | succ c =>
        exact List.mem_append_right _ (ih c j (by omega) (by simpa using hc) hk)

theorem mem_subKeysList_take_elim {k : BKey} :
    ∀ (ptrs : List (BKey × BNode)) (j : Nat), k ∈ subKeysList (ptrs.take j) →
      ∃ c, c < j ∧ c < ptrs.length ∧ k ∈ subKeys ((ptrs.getD c default).2) := by
  intro ptrs
  induction ptrs with
  | nil => intro j hk; rw [List.take_nil] at hk; cases hk
  | cons p rest ih =>
    intro j hk
    cases j with
    | zero => cases hk
    | succ j =>
      rcases List.mem_append.mp hk with h | h
      · exact ⟨0, by omega, by simp, h⟩
      · obtain ⟨c, hc1, hc2, hc3⟩ := ih j h
        exact ⟨c + 1, by omega, by simpa using hc2, hc3⟩

/-- Every key in child `c` of a sorted branch is strictly below the separator
key of child `c + 1`. -/
theorem block_lt_next_head {ptrs : List (BKey × BNode)}
    (hpair : List.Pairwise keyLt (subKeysList ptrs))
    (hheads : ∀ p ∈ ptrs, (subKeys p.2).head? = some p.1)
    {c : Nat} (hc : c + 1 < ptrs.length)
    {k : BKey} (hk : k ∈ subKeys ((ptrs.getD c default).2)) :
    keyLt k ((ptrs.getD (c + 1) default).1) := by
  have hsplit : subKeysList ptrs
      = subKeysList (ptrs.take (c + 1)) ++ subKeysList (ptrs.drop (c + 1)) := by
    rw [← subKeysList_append, List.take_append_drop]
  rw [hsplit] at hpair
  refine (List.pairwise_append.mp hpair).2.2 k ?_ _ ?_
  · exact mem_subKeysList_take_intro ptrs c (c + 1) (by omega) (by omega) hk
  · rw [drop_getD_cons ptrs (c + 1) hc]
    show _ ∈ subKeys (ptrs.getD (c + 1) default).2 ++ _
    obtain ⟨tl, htl⟩ := head?_eq_cons (hheads _ (getD_mem ptrs (c + 1) hc))
    rw [htl]
    exact List.mem_append_left _ (List.mem_cons_self _ _)

theorem map_fst_sublist_subKeysList :
    ∀ (ptrs : List (BKey × BNode)), (∀ p ∈ ptrs, (subKeys p.2).head? = some p.1) →
      (ptrs.map Prod.fst).Sublist (subKeysList ptrs) := by
  intro ptrs
  induction ptrs with
  | nil => intro _; exact List.Sublist.refl _
  | cons p rest ih =>
    intro hheads
    obtain ⟨tl, htl⟩ := head?_eq_cons (hheads p (List.mem_cons_self p rest))
    show (p.1 :: rest.map Prod.fst).Sublist (subKeys p.2 ++ subKeysList rest)
    rw [htl]
    show (p.1 :: rest.map Prod.fst).Sublist (p.1 :: (tl ++ subKeysList rest))
    exact List.Sublist.cons₂ p.1
      ((ih (fun q hq => hheads q (List.mem_cons_of_mem p hq))).trans
        (List.sublist_append_right tl _))

theorem nodeKeys_sublist_subKeys {n : BNode} (h : WfNode n) :
    (nodeKeys n).Sublist (subKeys n) := by
  cases n with
  | leaf items => exact List.Sublist.refl _
  | branch ptrs =>
    exact map_fst_sublist_subKeysList ptrs (fun p hp => wfNode_branch_head h hp)

theorem head?_nodeKeys_eq_head?_subKeys {n : BNode} (h : WfNode n) :
    (nodeKeys n).head? = (subKeys n).head? := by
  cases n with
  | leaf items => rfl
  | branch ptrs =>
    cases ptrs with
    | nil =>
      cases h with
      | branch _ hne _ _ => exact absurd rfl hne
    | cons p rest =>
      obtain ⟨tl, htl⟩ := head?_eq_cons (wfNode_branch_head h (List.mem_cons_self p rest))
      show some p.1 = (subKeys p.2 ++ subKeysList rest).head?
      rw [htl]
      rfl

theorem nodeCount_le_of_mem :
    ∀ (ptrs : List (BKey × BNode)) (p : BKey × BNode), p ∈ ptrs →
      nodeCount p.2 ≤ nodeCountList ptrs := by
  intro ptrs
  induction ptrs with
  | nil => intro p hp; cases hp
  | cons q rest ih =>
    intro p hp
    rcases List.mem_cons.mp hp with rfl | hp
    · exact Nat.le_add_right _ _
    · exact (ih p hp).trans (Nat.le_add_left _ _)

theorem find?_append_eq {p : BKey → Bool} (pre : List BKey) (x : BKey) (post : List BKey)
    (hpre : ∀ k ∈ pre, p k = false) (hx : p x = true) :
    (pre ++ x :: post).find? p = some x := by
  induction pre with
  | nil =>
    show (x :: post).find? p = some x
    rw [List.find?_cons_of_pos _ hx]
  | cons a rest ih =>
    show (a :: (rest ++ x :: post)).find? p = some x
    rw [List.find?_cons_of_neg _ (by simp [hpre a (List.mem_cons_self a rest)])]
    exact ih (fun k hk => hpre k (List.mem_cons_of_mem a hk))

/-- If the first key of the cursor's subtree compares equal to the query,
`search` descends along first children and stops exactly on that key. -/
theorem searchGo_headMatch (oid t off : Option Nat) (hq : PrefixQuery oid t off)
    {k0 : BKey} (hcmp : cmpKey k0 oid t off = 0) :
    ∀ (fuel : Nat) (s : CState), WfNode s.cur →
      List.Pairwise keyLt (subKeys s.cur) →
      (subKeys s.cur).head? = some k0 →
      nodeCount s.cur ≤ fuel →
      ∃ s', searchGo oid t off fuel s = some (some s') ∧ currentKey s' = k0 := by
  intro fuel
  induction fuel with
  | zero =>
    intro s hwf _ _ hfuel
    exact absurd hfuel (by have := nodeCount_pos s.cur; omega)
  | succ fuel ih =>
    intro s hwf hpair hhead hfuel
    have hn : 0 < s.cur.nritems := wfNode_nritems_pos hwf
    have hpn : List.Pairwise keyLt (nodeKeys s.cur) :=
      List.Pairwise.sublist (nodeKeys_sublist_subKeys hwf) hpair
    obtain ⟨hbs1, hbs2, hbs3⟩ := binSearch_spec s.cur oid t off hq hpn hn
    have h1 : (nodeKeys s.cur).head? = some k0 := by
      rw [head?_nodeKeys_eq_head?_subKeys hwf]
      exact hhead
    obtain ⟨tl, htl⟩ := head?_eq_cons h1
    have hk0 : s.cur.keyAt 0 = k0 := by
      rw [keyAt_eq_nodeKeys_getD, htl]
      rfl
    have hbs0 : binSearch s.cur oid t (off.getD 0) 0 (s.cur.nritems - 1) = 0 := by
      by_contra hne
      have h0 := hbs2 0 (by omega)
      rw [hk0] at h0
      have := cmp0_nonneg_of_eq oid t off k0 hcmp
      omega
    cases hcur : s.cur with
    | leaf items =>
      rw [hcur] at hbs0 hk0
      have heq : searchGo oid t off (fuel + 1) s
          = some (some ⟨.leaf items, 0, s.path⟩) := by
        simp only [searchGo, hcur]
        rw [hbs0, hk0, hcmp, if_pos (le_refl (0 : Int))]
      exact ⟨⟨.leaf items, 0, s.path⟩, heq, hk0⟩
    | branch ptrs =>
      rw [hcur] at hbs0 hk0 hwf hpair hhead hfuel hn
      have hlen : 0 < ptrs.length := hn
      have hj : searchDescendIdx (.branch ptrs) oid t off 0 = 0 := by
        unfold searchDescendIdx
        rw [if_neg (fun h => absurd h.2 (lt_irrefl 0))]
      have hstep : searchGo oid t off (fuel + 1) s
          = searchGo oid t off fuel ⟨childAt ptrs 0, 0, ⟨.branch ptrs, 0⟩ :: s.path⟩ := by
        simp only [searchGo, hcur]
        rw [hbs0, hj]
      have hchild_wf : WfNode (childAt ptrs 0) :=
        wfNode_branch_child hwf (getD_mem ptrs 0 hlen)
      have hdec : subKeysList ptrs = subKeys (childAt ptrs 0) ++ subKeysList (ptrs.drop 1) := by
        rw [subKeysList_take_drop ptrs 0 hlen]
        rfl
      have hpair2 : List.Pairwise keyLt (subKeysList ptrs) := hpair
      rw [hdec] at hpair2
      have hpair' : List.Pairwise keyLt (subKeys (childAt ptrs 0)) :=
        List.Pairwise.sublist (List.sublist_append_left _ _) hpair2
      obtain ⟨a, tl2, hshape⟩ : ∃ a tl2, subKeys (childAt ptrs 0) = a :: tl2 := by
        cases hsk : subKeys (childAt ptrs 0) with
        | nil => exact absurd hsk (subKeys_ne_nil hchild_wf)
        | cons a tl2 => exact ⟨a, tl2, rfl⟩
      have hh : (subKeysList ptrs).head? = some k0 := hhead
      rw [hdec, hshape] at hh
      have ha : some a = some k0 := hh
      injection ha with ha
      have hhead' : (subKeys (childAt ptrs 0)).head? = some k0 := by
        rw [hshape, ha]
        rfl
      have hfuel2 : 1 + nodeCountList ptrs ≤ fuel + 1 := hfuel
      have hfuel' : nodeCount (childAt ptrs 0) ≤ fuel := by
        have h2 : nodeCount (childAt ptrs 0) ≤ nodeCountList ptrs :=
          nodeCount_le_of_mem ptrs _ (getD_mem ptrs 0 hlen)
        omega
      obtain ⟨s', hs', hk⟩ := ih ⟨childAt ptrs 0, 0, ⟨.branch ptrs, 0⟩ :: s.path⟩
        hchild_wf hpair' hhead' hfuel'
      exact ⟨s', by rw [hstep]; exact hs', hk⟩

theorem mem_take_getD {α : Type} [Inhabited α] :
    ∀ (l : List α) (m : Nat) (k : α), k ∈ l.take m →
      ∃ i, i < m ∧ i < l.length ∧ k = l.getD i default := by
  intro l
  induction l with
  | nil => intro m k hk; rw [List.take_nil] at hk; cases hk
  | cons x rest ih =>
    intro m k hk
    cases m with
    | zero => cases hk
    | succ m =>
      rcases List.mem_cons.mp hk with rfl | hk
      · exact ⟨0, by omega, by simp, rfl⟩
      · obtain ⟨i, h1, h2, h3⟩ := ih m k hk
        exact ⟨i + 1, by omega, by simpa using h2, h3⟩

/-- The main invariant induction for `Cursor.search`: the loop terminates,
returns `False` exactly when every remaining key is below the query, and on
`True` stops on a key `≥` the query all of whose predecessors in the
processed prefix are below the query when the query is fully specified. -/
theorem searchGo_spec (oid t off : Option Nat) (hq : PrefixQuery oid t off) :
    ∀ (fuel : Nat) (s : CState) (done ks : List BKey),
      WfState s →
      done ++ stateKeys s = ks →
      List.Pairwise keyLt ks →
      (∀ k ∈ done, cmpKey k oid t off < 0) →
      stateCount s < fuel →
      (∃ r, searchGo oid t off fuel s = some r)
      ∧ (searchGo oid t off fuel s = some none →
          ∀ k ∈ ks, cmpKey k oid t off < 0)
      ∧ (∀ s', searchGo oid t off fuel s = some (some s') →
          0 ≤ cmpKey (currentKey s') oid t off
          ∧ ∃ pre post, pre ++ currentKey s' :: post = ks
            ∧ ((∃ o tv ov, oid = some o ∧ t = some tv ∧ off = some ov) →
                ∀ k ∈ pre, cmpKey k oid t off < 0)) := by
  intro fuel
  induction fuel with
  | zero =>
    intro s done ks hwf hks hchain hdone hcount
    exact absurd hcount (by omega)
  | succ fuel ih =>
    intro s done ks hwf hks hchain hdone hcount
    obtain ⟨hwfc, hwfp⟩ := hwf
    have hn : 0 < s.cur.nritems := wfNode_nritems_pos hwfc
    have hsubpair : List.Pairwise keyLt (subKeys s.cur) := by
      have h1 : (subKeys s.cur).Sublist (stateKeys s) := List.sublist_append_left _ _
      have h2 : (stateKeys s).Sublist ks := by
        rw [← hks]
        exact List.sublist_append_right _ _
      exact List.Pairwise.sublist (h1.trans h2) hchain
    have hpn : List.Pairwise keyLt (nodeKeys s.cur) :=
      List.Pairwise.sublist (nodeKeys_sublist_subKeys hwfc) hsubpair
    obtain ⟨hbs1, hbs2, hbs3⟩ := binSearch_spec s.cur oid t off hq hpn hn
    cases hcur : s.cur with
    | leaf items =>
      rw [hcur] at hbs1 hbs2 hbs3 hn
      set bsv := binSearch (BNode.leaf items) oid t (off.getD 0) 0
        ((BNode.leaf items).nritems - 1) with hbsv
      have hsk : stateKeys s = items.map Prod.fst ++ pathKeys s.path := by
        unfold stateKeys
        rw [hcur]
        rfl
      have hlenm : bsv < (items.map Prod.fst).length := by
        rw [List.length_map]
        exact hbs1
      have hgetD : (BNode.leaf items).keyAt bsv = (items.map Prod.fst).getD bsv default :=
        keyAt_eq_nodeKeys_getD _ _
      have hsplitm : items.map Prod.fst
          = (items.map Prod.fst).take bsv
            ++ ((items.map Prod.fst).getD bsv default :: (items.map Prod.fst).drop (bsv + 1)) := by
        conv_lhs => rw [← List.take_append_drop bsv (items.map Prod.fst)]
        rw [drop_getD_cons _ bsv hlenm]
      have hprelow : ∀ k ∈ (items.map Prod.fst).take bsv, cmpKey k oid t off < 0 := by
        intro k hk
        obtain ⟨i, hi1, hi2, hi3⟩ := mem_take_getD _ _ k hk
        have h4 := hbs2 i hi1
        rw [keyAt_eq_nodeKeys_getD] at h4
        have h4' : cmpKey ((items.map Prod.fst).getD i default) oid t (some (off.getD 0)) < 0 := h4
        rw [← hi3] at h4'
        exact (cmp0_lt_iff oid t off k).mp h4'
      rcases lt_or_le (cmpKey ((BNode.leaf items).keyAt bsv) oid t off) 0 with hres | hres
      · -- result < 0: last-leaf continuation via next_node
        have hc0 : cmpKey ((BNode.leaf items).keyAt bsv) oid t (some (off.getD 0)) < 0 :=
          (cmp0_lt_iff oid t off _).mpr hres
        have hlast : bsv = (BNode.leaf items).nritems - 1 := by
          rcases hbs3 with h | h
          · omega
          · exact h
        have hlastN : bsv = items.length - 1 := hlast
        have hnN : 0 < items.length := hn
        have hstep : searchGo oid t off (fuel + 1) s
            = (match nextNode ⟨.leaf items, bsv, s.path⟩ with
               | none => some none
               | some s2 => searchGo oid t off fuel s2) := by
          simp only [searchGo, hcur]
          rw [← hbsv, if_neg (not_le.mpr hres), if_pos hlastN]
        have hleafneg : ∀ k ∈ items.map Prod.fst, cmpKey k oid t off < 0 := by
          intro k hk
          have hk' : k ∈ (items.map Prod.fst).take (items.map Prod.fst).length := by
            rw [List.take_length]
            exact hk
          obtain ⟨i, hi1, hi2, hi3⟩ := mem_take_getD _ _ k hk'
          rcases Nat.lt_or_ge i bsv with hib | hib
          · have h4 := hbs2 i hib
            rw [keyAt_eq_nodeKeys_getD] at h4
            have h4' : cmpKey ((items.map Prod.fst).getD i default) oid t (some (off.getD 0)) < 0 := h4
            rw [← hi3] at h4'
            exact (cmp0_lt_iff oid t off k).mp h4'
          · have hieq : i = bsv := by
              rw [List.length_map] at hi2
              omega
            subst hieq
            rw [hgetD] at hres
            rw [← hi3] at hres
            exact hres
        have hexh : (⟨.leaf items, bsv, s.path⟩ : CState).index + 1
            ≥ (⟨.leaf items, bsv, s.path⟩ : CState).cur.nritems := by
          show items.length ≤ bsv + 1
          omega
        have NX := nextNode_spec ⟨.leaf items, bsv, s.path⟩ hwfp hexh
        cases hnx : nextNode ⟨.leaf items, bsv, s.path⟩ with
        | none =>
          obtain ⟨hpk, hpc⟩ := NX.1 hnx
          have hstep2 : searchGo oid t off (fuel + 1) s = some none := by
            rw [hstep, hnx]
          refine ⟨⟨none, hstep2⟩, ?_, ?_⟩
          · intro _ k hk
            rw [← hks] at hk
            rcases List.mem_append.mp hk with h1 | h1
            · exact hdone k h1
            · rw [hsk] at h1
              rcases List.mem_append.mp h1 with h2 | h2
              · exact hleafneg k h2
              · have hpk' : pathKeys s.path = [] := hpk
                rw [hpk'] at h2
                cases h2
          · intro s' h
            rw [hstep2] at h
            exact Option.noConfusion (Option.some.inj h)
        | some s2 =>
          obtain ⟨hwf2, hfr2, hidx2, hkeys2, hcnt2⟩ := NX.2 s2 hnx
          have hstep2 : searchGo oid t off (fuel + 1) s = searchGo oid t off fuel s2 := by
            rw [hstep, hnx]
          have hks2 : (done ++ items.map Prod.fst) ++ stateKeys s2 = ks := by
            have hkeys2' : stateKeys s2 = pathKeys s.path := hkeys2
            rw [hkeys2', ← hks, hsk, List.append_assoc]
          have hdone2 : ∀ k ∈ done ++ items.map Prod.fst, cmpKey k oid t off < 0 := by
            intro k hk
            rcases List.mem_append.mp hk with h1 | h1
            · exact hdone k h1
            · exact hleafneg k h1
          have hcnt2' : stateCount s2 < fuel := by
            have hstc : stateCount s = nodeCount s.cur + pathCount s.path := rfl
            have hnc : nodeCount s.cur = 1 := by rw [hcur]; rfl
            have hcc : stateCount s2 ≤ pathCount s.path := hcnt2
            omega
          obtain ⟨hex', hnone', hsome'⟩ := ih s2 (done ++ items.map Prod.fst) ks
            ⟨hwf2, hfr2⟩ hks2 hchain hdone2 hcnt2'
          refine ⟨?_, ?_, ?_⟩
          · obtain ⟨r, hr⟩ := hex'
            exact ⟨r, by rw [hstep2]; exact hr⟩
          · intro h
            rw [hstep2] at h
            exact hnone' h
          · intro s' h
            rw [hstep2] at h
            exact hsome' s' h
      · -- 0 ≤ result: found at this leaf
        have hstep : searchGo oid t off (fuel + 1) s
            = some (some ⟨.leaf items, bsv, s.path⟩) := by
          simp only [searchGo, hcur]
          rw [← hbsv, if_pos hres]
        refine ⟨⟨some ⟨.leaf items, bsv, s.path⟩, hstep⟩, ?_, ?_⟩
        · intro h
          rw [hstep] at h
          exact Option.noConfusion (Option.some.inj h)
        · intro s' h
          rw [hstep] at h
          have hseq : s' = ⟨.leaf items, bsv, s.path⟩ :=
            (Option.some.inj (Option.some.inj h)).symm
          subst hseq
          refine ⟨hres, done ++ (items.map Prod.fst).take bsv,
            (items.map Prod.fst).drop (bsv + 1) ++ pathKeys s.path, ?_, ?_⟩
          · show (done ++ (items.map Prod.fst).take bsv)
                ++ (BNode.leaf items).keyAt bsv
                  :: ((items.map Prod.fst).drop (bsv + 1) ++ pathKeys s.path) = ks
            rw [← hks, hsk, hgetD]
            conv_rhs => rw [hsplitm]
            simp only [List.append_assoc, List.cons_append]
          · intro _ k hk
            rcases List.mem_append.mp hk with h1 | h1
            · exact hdone k h1
            · exact hprelow k h1
    | branch ptrs =>
      rw [hcur] at hbs1 hbs2 hbs3 hn hwfc hsubpair
      set bsv := binSearch (BNode.branch ptrs) oid t (off.getD 0) 0
        ((BNode.branch ptrs).nritems - 1) with hbsv
      have hlen : bsv < ptrs.length := hbs1
      have hheads : ∀ p ∈ ptrs, (subKeys p.2).head? = some p.1 :=
        fun p hp => wfNode_branch_head hwfc hp
      have hpairlist : List.Pairwise keyLt (subKeysList ptrs) := hsubpair
      have hsk : stateKeys s = subKeysList ptrs ++ pathKeys s.path := by
        unfold stateKeys
        rw [hcur]
        rfl
      have hstep : ∀ jv, searchDescendIdx (BNode.branch ptrs) oid t off bsv = jv →
          searchGo oid t off (fuel + 1) s
            = searchGo oid t off fuel ⟨childAt ptrs jv, 0, ⟨.branch ptrs, jv⟩ :: s.path⟩ := by
        intro jv hjv
        simp only [searchGo, hcur]
        rw [← hbsv, hjv]
      have hskip_of : ∀ jv, jv ≤ bsv →
          (∀ i, 0 < i → i ≤ jv → cmpKey ((BNode.branch ptrs).keyAt i) oid t off < 0) →
          ∀ k ∈ subKeysList (ptrs.take jv), cmpKey k oid t off < 0 := by
        intro jv hjle hsep k hk
        obtain ⟨c, hc1, hc2, hc3⟩ := mem_subKeysList_take_elim ptrs jv hk
        have hcl : c + 1 < ptrs.length := by omega
        have hlt := block_lt_next_head hpairlist hheads hcl hc3
        have hsepc : cmpKey ((ptrs.getD (c + 1) default).1) oid t off < 0 :=
          hsep (c + 1) (by omega) (by omega)
        exact cmpN_lt_mono oid t off hq hlt hsepc
      have hrec : ∀ jv, jv ≤ bsv →
          searchDescendIdx (BNode.branch ptrs) oid t off bsv = jv →
          (∀ k ∈ subKeysList (ptrs.take jv), cmpKey k oid t off < 0) →
          (∃ r, searchGo oid t off (fuel + 1) s = some r)
          ∧ (searchGo oid t off (fuel + 1) s = some none →
              ∀ k ∈ ks, cmpKey k oid t off < 0)
          ∧ (∀ s', searchGo oid t off (fuel + 1) s = some (some s') →
              0 ≤ cmpKey (currentKey s') oid t off
              ∧ ∃ pre post, pre ++ currentKey s' :: post = ks
                ∧ ((∃ o tv ov, oid = some o ∧ t = some tv ∧ off = some ov) →
                    ∀ k ∈ pre, cmpKey k oid t off < 0)) := by
        intro jv hjle hjv hskip
        have hjlen : jv < ptrs.length := by omega
        have hstep' := hstep jv hjv
        have hwchild : WfNode (childAt ptrs jv) :=
          wfNode_branch_child hwfc (getD_mem ptrs jv hjlen)
        have hwf2 : WfState ⟨childAt ptrs jv, 0, ⟨.branch ptrs, jv⟩ :: s.path⟩ := by
          refine ⟨hwchild, ?_⟩
          intro f hf
          rcases List.mem_cons.mp hf with rfl | hf
          · exact ⟨hwfc, ⟨ptrs, rfl⟩, hjlen⟩
          · exact hwfp f hf
        have hdecomp' : subKeysList ptrs
            = subKeysList (ptrs.take jv) ++ subKeys (childAt ptrs jv)
              ++ subKeysList (ptrs.drop (jv + 1)) := subKeysList_take_drop ptrs jv hjlen
        have hks2 : (done ++ subKeysList (ptrs.take jv))
            ++ stateKeys ⟨childAt ptrs jv, 0, ⟨.branch ptrs, jv⟩ :: s.path⟩ = ks := by
          show (done ++ subKeysList (ptrs.take jv))
              ++ (subKeys (childAt ptrs jv) ++ pathKeys (⟨.branch ptrs, jv⟩ :: s.path)) = ks
          rw [pathKeys_cons]
          have hfk : frameKeys ⟨.branch ptrs, jv⟩ = subKeysList (ptrs.drop (jv + 1)) := by
            simp only [frameKeys]
          rw [hfk, ← hks, hsk, hdecomp']
          simp only [List.append_assoc]
        have hdone2 : ∀ k ∈ done ++ subKeysList (ptrs.take jv), cmpKey k oid t off < 0 := by
          intro k hk
          rcases List.mem_append.mp hk with h1 | h1
          · exact hdone k h1
          · exact hskip k h1
        have hcnt2 : stateCount ⟨childAt ptrs jv, 0, ⟨.branch ptrs, jv⟩ :: s.path⟩ < fuel := by
          show nodeCount (childAt ptrs jv) + pathCount (⟨.branch ptrs, jv⟩ :: s.path) < fuel
          rw [pathCount_cons]
          have hfc : frameCount ⟨.branch ptrs, jv⟩ = nodeCountList (ptrs.drop (jv + 1)) := by
            simp only [frameCount]
          rw [hfc]
          have hstc : stateCount s = nodeCount s.cur + pathCount s.path := rfl
          have hnc : nodeCount s.cur = 1 + nodeCountList ptrs := by rw [hcur]; rfl
          have hchild_eq : nodeCount (childAt ptrs jv) = nodeCount ((ptrs.getD jv default).2) := rfl
          have hcdec := nodeCountList_take_drop ptrs jv hjlen
          omega
        obtain ⟨hex', hnone', hsome'⟩ := ih ⟨childAt ptrs jv, 0, ⟨.branch ptrs, jv⟩ :: s.path⟩
          (done ++ subKeysList (ptrs.take jv)) ks hwf2 hks2 hchain hdone2 hcnt2
        refine ⟨?_, ?_, ?_⟩
        · obtain ⟨r, hr⟩ := hex'
          exact ⟨r, by rw [hstep']; exact hr⟩
        · intro h
          rw [hstep'] at h
          exact hnone' h
        · intro s' h
          rw [hstep'] at h
          exact hsome' s' h
      rcases lt_trichotomy (cmpKey ((BNode.branch ptrs).keyAt bsv) oid t off) 0 with hres | hres | hres
      · -- result < 0: descend at bsv, all separators up to bsv are below the query
        have hjv : searchDescendIdx (BNode.branch ptrs) oid t off bsv = bsv := by
          unfold searchDescendIdx
          rw [if_neg (fun hh => absurd hh.1 (by omega))]
        have hsep : ∀ i, 0 < i → i ≤ bsv → cmpKey ((BNode.branch ptrs).keyAt i) oid t off < 0 := by
          intro i hi0 hile
          rcases Nat.lt_or_ge i bsv with hib | hib
          · exact (cmp0_lt_iff oid t off _).mp (hbs2 i hib)
          · have hieq : i = bsv := by omega
            rw [hieq]
            exact hres
        exact hrec bsv (le_refl _) hjv (hskip_of bsv (le_refl _) hsep)
      · -- result = 0: the query key heads the child subtree; search stops on it
        have hjv : searchDescendIdx (BNode.branch ptrs) oid t off bsv = bsv := by
          unfold searchDescendIdx
          rw [if_neg (fun hh => absurd hh.1 (by omega))]
        have hstep' := hstep bsv hjv
        have hwchild : WfNode (childAt ptrs bsv) :=
          wfNode_branch_child hwfc (getD_mem ptrs bsv hlen)
        have hdecomp' : subKeysList ptrs
            = subKeysList (ptrs.take bsv) ++ subKeys (childAt ptrs bsv)
              ++ subKeysList (ptrs.drop (bsv + 1)) := subKeysList_take_drop ptrs bsv hlen
        have hdecomp2 : subKeysList ptrs
            = subKeysList (ptrs.take bsv) ++ (subKeys (childAt ptrs bsv)
              ++ subKeysList (ptrs.drop (bsv + 1))) := by
          rw [hdecomp', List.append_assoc]
        have hcpair : List.Pairwise keyLt (subKeys (childAt ptrs bsv)) := by
          have hsub : (subKeys (childAt ptrs bsv)).Sublist (subKeysList ptrs) := by
            rw [hdecomp2]
            exact (List.sublist_append_left _ _).trans (List.sublist_append_right _ _)
          exact List.Pairwise.sublist hsub hpairlist
        have hchildhead : (subKeys (childAt ptrs bsv)).head?
            = some ((BNode.branch ptrs).keyAt bsv) :=
          wfNode_branch_head hwfc (getD_mem ptrs bsv hlen)
        have hfuel2 : nodeCount (childAt ptrs bsv) ≤ fuel := by
          have hstc : stateCount s = nodeCount s.cur + pathCount s.path := rfl
          have hnc : nodeCount s.cur = 1 + nodeCountList ptrs := by rw [hcur]; rfl
          have hle2 : nodeCount ((ptrs.getD bsv default).2) ≤ nodeCountList ptrs :=
            nodeCount_le_of_mem ptrs _ (getD_mem ptrs bsv hlen)
          have hchild_eq : nodeCount (childAt ptrs bsv) = nodeCount ((ptrs.getD bsv default).2) := rfl
          omega
        obtain ⟨s', hs', hkey'⟩ := searchGo_headMatch oid t off hq hres fuel
          ⟨childAt ptrs bsv, 0, ⟨.branch ptrs, bsv⟩ :: s.path⟩ hwchild hcpair hchildhead hfuel2
        refine ⟨⟨some s', by rw [hstep']; exact hs'⟩, ?_, ?_⟩
        · intro h
          rw [hstep', hs'] at h
          exact Option.noConfusion (Option.some.inj h)
        · intro s'' h
          rw [hstep', hs'] at h
          have hseq : s' = s'' := Option.some.inj (Option.some.inj h)
          subst hseq
          obtain ⟨tlc, htlc⟩ := head?_eq_cons hchildhead
          refine ⟨by rw [hkey']; exact le_of_eq hres.symm,
            done ++ subKeysList (ptrs.take bsv),
            tlc ++ (subKeysList (ptrs.drop (bsv + 1)) ++ pathKeys s.path), ?_, ?_⟩
          · rw [hkey']
            show (done ++ subKeysList (ptrs.take bsv))
                ++ (BNode.branch ptrs).keyAt bsv
                  :: (tlc ++ (subKeysList (ptrs.drop (bsv + 1)) ++ pathKeys s.path)) = ks
            rw [← hks, hsk, hdecomp', htlc]
            simp only [List.append_assoc, List.cons_append]
          · intro hfull k hk
            obtain ⟨o, tv, ov, ho, ht, hoff⟩ := hfull
            rcases List.mem_append.mp hk with h1 | h1
            · exact hdone k h1
            · obtain ⟨c, hc1, hc2, hc3⟩ := mem_subKeysList_take_elim ptrs bsv h1
              have hcl : c + 1 < ptrs.length := by omega
              have hlt := block_lt_next_head hpairlist hheads hcl hc3
              rcases Nat.lt_or_ge (c + 1) bsv with hcb | hcb
              · have h4 : cmpKey ((ptrs.getD (c + 1) default).1) oid t off < 0 :=
                  (cmp0_lt_iff oid t off _).mp (hbs2 (c + 1) hcb)
                exact cmpN_lt_mono oid t off hq hlt h4
              · have hceq : c + 1 = bsv := by omega
                subst ho
                subst ht
                subst hoff
                have hb : cmpKey ((ptrs.getD (c + 1) default).1) (some o) (some tv) (some ov) ≤ 0 := by
                  rw [hceq]
                  exact le_of_eq hres
                exact cmpFull_lt_of_le o tv ov hlt hb
      · -- result > 0: descend one child earlier when possible
        rcases Nat.eq_zero_or_pos bsv with hbs0 | hbs0
        · have hjv : searchDescendIdx (BNode.branch ptrs) oid t off bsv = bsv := by
            unfold searchDescendIdx
            rw [if_neg (fun hh => absurd hh.2 (by omega))]
          have hskip0 : ∀ k ∈ subKeysList (ptrs.take bsv), cmpKey k oid t off < 0 := by
            intro k hk
            rw [hbs0] at hk
            have hk' : k ∈ ([] : List BKey) := hk
            cases hk'
          exact hrec bsv (le_refl _) hjv hskip0
        · have hjv : searchDescendIdx (BNode.branch ptrs) oid t off bsv = bsv - 1 := by
            unfold searchDescendIdx
            rw [if_pos ⟨hres, hbs0⟩]
          have hsep : ∀ i, 0 < i → i ≤ bsv - 1 →
              cmpKey ((BNode.branch ptrs).keyAt i) oid t off < 0 := by
            intro i hi0 hile
            exact (cmp0_lt_iff oid t off _).mp (hbs2 i (by omega))
          exact hrec (bsv - 1) (by omega) hjv (hskip_of (bsv - 1) (by omega) hsep)

/-- The two-level tree used for the C5 counterexample and the C10 witness. -/
def c5demo : BNode :=
  .branch
    [(⟨4, 84, 9⟩, .leaf [(⟨4, 84, 9⟩, 0), (⟨5, 84, 1⟩, 1)]),
     (⟨5, 84, 3⟩, .leaf [(⟨5, 84, 3⟩, 2)])]

theorem c10_iter_empty_on_failed_search_witness :
    cursorIter 10 c5demo (some 9) (some 0) none false = some [] :=
  c10_iter_empty_on_failed_search 10 c5demo (some 9) (some 0) none false rfl

theorem c5demo_wf : WfNode c5demo := by
  refine WfNode.branch _ (List.cons_ne_nil _ _) ?_ ?_
  · intro p hp
    rcases List.mem_cons.mp hp with rfl | hp2
    · exact WfNode.leaf _ (List.cons_ne_nil _ _)
    · rcases List.mem_cons.mp hp2 with rfl | hp3
      · exact WfNode.leaf _ (List.cons_ne_nil _ _)
      · cases hp3
  · intro p hp
    rcases List.mem_cons.mp hp with rfl | hp2
    · rfl
    · rcases List.mem_cons.mp hp2 with rfl | hp3
      · rfl
      · cases hp3

/-- **C5**: on a well-formed sorted tree, a fuelled `Cursor.search` always
terminates; it returns `False` exactly when every leaf key compares below
the query prefix; on `True` it is positioned on a leaf key of the tree that
compares `≥` the query, and when the query specifies objectid, type and
offset this is the smallest such key (the first one in tree order); at
branch level it descends via `min_idx - 1` exactly when the found key is
strictly greater than the query and `min_idx > 0`.  (For partially
specified queries the cursor may stop on a matching key that is not the
first, see `c5_counterexample`.) -/
theorem c5_search_positioning (fuel : Nat) (root : BNode) (oid t off : Option Nat)
    (hwf : WfNode root) (hsort : List.Pairwise keyLt (subKeys root))
    (hq : PrefixQuery oid t off) (hfuel : nodeCount root < fuel) :
    (∃ r, cursorSearch fuel root oid t off = some r)
    ∧ (cursorSearch fuel root oid t off = some none ↔
        ∀ k ∈ subKeys root, cmpKey k oid t off < 0)
    ∧ (∀ s, cursorSearch fuel root oid t off = some (some s) →
        0 ≤ cmpKey (currentKey s) oid t off
        ∧ currentKey s ∈ subKeys root
        ∧ (∀ o tv ov, oid = some o → t = some tv → off = some ov →
            (subKeys root).find? (fun k => decide (0 ≤ cmpKey k oid t off))
              = some (currentKey s)))
    ∧ (∀ n bs, 0 < cmpKey (n.keyAt bs) oid t off → 0 < bs →
        searchDescendIdx n oid t off bs = bs - 1)
    ∧ (∀ n bs, cmpKey (n.keyAt bs) oid t off ≤ 0 ∨ bs = 0 →
        searchDescendIdx n oid t off bs = bs) := by
  have hwfs : WfState ⟨root, 0, []⟩ := ⟨hwf, fun f hf => absurd hf (List.not_mem_nil f)⟩
  have hks : ([] : List BKey) ++ stateKeys ⟨root, 0, []⟩ = subKeys root := by
    show stateKeys ⟨root, 0, []⟩ = subKeys root
    show subKeys root ++ pathKeys [] = subKeys root
    have hp0 : pathKeys ([] : List SFrame) = [] := rfl
    rw [hp0]
    exact List.append_nil _
  have hcnt : stateCount ⟨root, 0, []⟩ < fuel := by
    have h1 : stateCount ⟨root, 0, []⟩ = nodeCount root + pathCount [] := rfl
    have h2 : pathCount ([] : List SFrame) = 0 := rfl
    omega
  obtain ⟨hex, hnone, hsome⟩ := searchGo_spec oid t off hq fuel ⟨root, 0, []⟩ [] (subKeys root)
    hwfs hks hsort (fun k hk => absurd hk (List.not_mem_nil k)) hcnt
  refine ⟨hex, ⟨hnone, ?_⟩, ?_, ?_, ?_⟩
  · intro hall
    obtain ⟨r, hr⟩ := hex
    cases r with
    | none => exact hr
    | some s =>
      obtain ⟨h0, pre, post, hdec, _⟩ := hsome s hr
      have hmem : currentKey s ∈ subKeys root := by
        rw [← hdec]
        exact List.mem_append_right _ (List.mem_cons_self _ _)
      exact absurd (hall _ hmem) (by omega)
  · intro s hs
    obtain ⟨h0, pre, post, hdec, hpre⟩ := hsome s hs
    refine ⟨h0, ?_, ?_⟩
    · rw [← hdec]
      exact List.mem_append_right _ (List.mem_cons_self _ _)
    · intro o tv ov ho ht hoff
      have hprelow := hpre ⟨o, tv, ov, ho, ht, hoff⟩
      rw [← hdec]
      exact find?_append_eq pre _ post
        (fun k hk => decide_eq_false (not_le.mpr (hprelow k hk)))
        (decide_eq_true h0)
  · intro n bs h1 h2
    unfold searchDescendIdx
    rw [if_pos ⟨h1, h2⟩]
  · intro n bs h
    unfold searchDescendIdx
    rw [if_neg (fun hh => by rcases h with h' | h' <;> omega)]

theorem c5_search_positioning_witness :
    (∃ r, cursorSearch 10 c5demo (some 5) (some 84) (some 2) = some r)
    ∧ (cursorSearch 10 c5demo (some 5) (some 84) (some 2) = some none ↔
        ∀ k ∈ subKeys c5demo, cmpKey k (some 5) (some 84) (some 2) < 0)
    ∧ (∀ s, cursorSearch 10 c5demo (some 5) (some 84) (some 2) = some (some s) →
        0 ≤ cmpKey (currentKey s) (some 5) (some 84) (some 2)
        ∧ currentKey s ∈ subKeys c5demo
        ∧ (∀ o tv ov, some 5 = some o → some 84 = some tv → some 2 = some ov →
            (subKeys c5demo).find?
                (fun k => decide (0 ≤ cmpKey k (some 5) (some 84) (some 2)))
              = some (currentKey s)))
    ∧ (∀ n bs, 0 < cmpKey (n.keyAt bs) (some 5) (some 84) (some 2) → 0 < bs →
        searchDescendIdx n (some 5) (some 84) (some 2) bs = bs - 1)
    ∧ (∀ n bs, cmpKey (n.keyAt bs) (some 5) (some 84) (some 2) ≤ 0 ∨ bs = 0 →
        searchDescendIdx n (some 5) (some 84) (some 2) bs = bs) :=
  c5_search_positioning 10 c5demo (some 5) (some 84) (some 2) c5demo_wf
    (by decide) ⟨fun _ => rfl, fun _ => rfl⟩ (by decide)

/-- The original C5 wording fails for partially specified queries: on
`c5demo` with query `(5, 84, ?)` the search stops on `(5, 84, 3)`, although
the smallest matching leaf key is `(5, 84, 1)` (the branch-level compare of
`(5, 84, 3)` against the wildcard query returns equal, so the preceding
subtree is never entered). -/
theorem c5_counterexample :
    WfNode c5demo
    ∧ List.Pairwise keyLt (subKeys c5demo)
    ∧ PrefixQuery (some 5) (some 84) none
    ∧ (cursorSearch 10 c5demo (some 5) (some 84) none).map (Option.map currentKey)
        = some (some ⟨5, 84, 3⟩)
    ∧ (subKeys c5demo).find? (fun k => decide (0 ≤ cmpKey k (some 5) (some 84) none))
        = some ⟨5, 84, 1⟩
    ∧ (⟨5, 84, 3⟩ : BKey) ≠ ⟨5, 84, 1⟩ :=
  ⟨c5demo_wf, by decide, ⟨fun _ => rfl, fun h => Bool.noConfusion h⟩, rfl, rfl, by decide⟩

end BtrfsVerify
